import Mathlib

/-!
# One-time secret store (`src/main.go`)

A shallow embedding of the in-memory secret store of `src/main.go`:
`Secret`, `MemoryStore`, `StoreSecret`, `GetSecret`, `generateKey` and the two HTTP
handlers `StoreSecretHandler` and `GetSecretHandler`.

Modelling conventions.

* `time.Time` and `time.Duration` are integers (nanoseconds); `t.Add(d)` is `t + d`
  and `a.After(b)` is `b < a`.  The integers are unbounded: the ends of the
  representable range of `time.Time` are not modelled.  The clock reading
  `time.Now()` of a call is an explicit argument `now`.
* Go strings are compared only for equality; payloads and keys are Lean strings.
* `map[string]Secret` is an association list.  `m[k]` is `mapLookup`,
  `m[k] = v` is `mapInsert` and `delete(m, k)` is `mapDelete`.
* Every method body runs under `ms.mu.Lock()` / `defer ms.mu.Unlock()`, so a call
  is one atomic step from a store state to a result and a new store state.
* Concurrent calls of `GetSecret` are goroutines that run the statements of the method
  one at a time, interleaved in any order by a scheduler (`getStep`, `sysStep`,
  `runSchedule`); `Lock` can be taken only while the mutex is free.
* `crypto/rand.Read` is an explicit argument: either a failure or a stream of
  bytes from which the buffer is filled.  `log.Fatal` ends the process, which is
  the result `none`.
-/

namespace Paloma

/-! ## Data model -/

/-- A secret stored in memory (`type Secret struct`). -/
structure Secret where
  Value : String
  ExpiresAt : Int
deriving DecidableEq, Repr

/-- The contents of a Go `map[string]Secret`. -/
abbrev SecretMap := List (String × Secret)

/-- The map read `v, exists := m[key]`: `none` stands for `exists = false`. -/
def mapLookup : SecretMap → String → Option Secret
  | [], _ => none
  | (k, v) :: rest, key => if k = key then some v else mapLookup rest key

/-- The builtin `delete(m, key)`: a no-op when the key is not in the map. -/
def mapDelete : SecretMap → String → SecretMap
  | [], _ => []
  | (k, v) :: rest, key => if k = key then mapDelete rest key else (k, v) :: mapDelete rest key

/-- The map assignment `m[key] = v`: any earlier entry under `key` is replaced. -/
def mapInsert (m : SecretMap) (key : String) (v : Secret) : SecretMap :=
  (key, v) :: mapDelete m key

/-- The in-memory store (`type MemoryStore struct`); the mutex is the atomicity of
each operation below. -/
structure MemoryStore where
  secrets : SecretMap
deriving DecidableEq, Repr

/-- The constructor `NewMemoryStore`. -/
def NewMemoryStore : MemoryStore := { secrets := [] }

/-! ## Key generator -/

/-- A Go `byte`. -/
abbrev Byte := Fin 256

/-- The 64-character alphabet of `base64.URLEncoding` (`encodeURL` in `encoding/base64`). -/
def encodeURL : List Char :=
  "ABCDEFGHIJKLMNOPQRSTUVWXYZabcdefghijklmnopqrstuvwxyz0123456789-_".toList

/-- The padding character of `base64.URLEncoding` (`StdPadding`). -/
def padChar : Char := '='

/-- The alphabet read `enc.encode[i]`. -/
def encodeAt (i : Nat) : Char := encodeURL.getD i 'A'

/-- The method `(*Encoding).Encode` of `encoding/base64` for `URLEncoding`: every full
group of three source bytes gives four alphabet characters; a remainder of one or
two bytes gives two or three alphabet characters followed by padding. -/
def Encode : List Byte → List Char
  | [] => []
  | [b0] =>
    let val := b0.val <<< 16
    [encodeAt (val >>> 18 &&& 0x3F), encodeAt (val >>> 12 &&& 0x3F), padChar, padChar]
  | [b0, b1] =>
    let val := b0.val <<< 16 ||| b1.val <<< 8
    [encodeAt (val >>> 18 &&& 0x3F), encodeAt (val >>> 12 &&& 0x3F),
      encodeAt (val >>> 6 &&& 0x3F), padChar]
  | b0 :: b1 :: b2 :: rest =>
    let val := b0.val <<< 16 ||| b1.val <<< 8 ||| b2.val
    encodeAt (val >>> 18 &&& 0x3F) :: encodeAt (val >>> 12 &&& 0x3F) ::
      encodeAt (val >>> 6 &&& 0x3F) :: encodeAt (val &&& 0x3F) :: Encode rest

/-- The call `base64.URLEncoding.EncodeToString(bytes)`. -/
def EncodeToString (src : List Byte) : String := String.mk (Encode src)

/-- The position of a character in the alphabet, `64` for a character outside it. -/
def decodeAt (c : Char) : Nat := encodeURL.indexOf c

/-- The byte with value `n % 256`. -/
def byteOf (n : Nat) : Byte := ⟨n % 256, Nat.mod_lt n (by decide)⟩

/-- The reading of a padded base64 text back into bytes, group by group: the inverse
of `Encode`, used to state that a key carries every byte it was generated from. -/
def Decode : List Char → List Byte
  | c0 :: c1 :: c2 :: c3 :: rest =>
    if c2 = padChar then
      [byteOf ((decodeAt c0 * 64 + decodeAt c1) / 16)]
    else if c3 = padChar then
      let v := (decodeAt c0 * 64 + decodeAt c1) * 64 + decodeAt c2
      [byteOf (v / 1024), byteOf (v / 4)]
    else
      let v := ((decodeAt c0 * 64 + decodeAt c1) * 64 + decodeAt c2) * 64 + decodeAt c3
      byteOf (v / 65536) :: byteOf (v / 256) :: byteOf v :: Decode rest
  | _ => []

/-- The characters the key format allows besides padding: ASCII letters, digits,
`-` and `_`. -/
def urlSafeChar (c : Char) : Bool :=
  c.isAlpha || c.isDigit || c == '-' || c == '_'

/-- The outcome of `rand.Read(bytes)`: `none` is a non-nil `err`; `some stream` fills
`bytes[i]` with `stream i` for every index of the buffer. -/
abbrev RandSource := Option (Nat → Byte)

/-- The buffer `bytes` of `generateKey` after a successful `rand.Read`. -/
def readBytes (length : Nat) (stream : Nat → Byte) : List Byte :=
  (List.range length).map stream

/-- The function `generateKey`: `none` is the `log.Fatal` exit. -/
def generateKey (length : Nat) (rand : RandSource) : Option String :=
  match rand with
  | none => none
  | some stream => some (EncodeToString (readBytes length stream))

/-! ## Store operations -/

/-- The method `MemoryStore.StoreSecret`, run with clock reading `now` and random
source `rand`.  The result is the returned key and the store afterwards, or
`none` when `generateKey` ends the process. -/
def StoreSecret (ms : MemoryStore) (rand : RandSource) (now : Int) (secret : String)
    (ttl : Int) : Option (String × MemoryStore) :=
  match generateKey 32 rand with
  | none => none
  | some key =>
    some (key, { secrets := mapInsert ms.secrets key { Value := secret, ExpiresAt := now + ttl } })

/-- How a call of `StoreSecret` ends, with the store as the statements run so far have
left it: the call returns a key, or `log.Fatal` ends the process inside `generateKey`. -/
inductive StoreEnd where
  | returned (key : String) (ms : MemoryStore)
  | exited (ms : MemoryStore)
deriving DecidableEq, Repr

/-- The method `MemoryStore.StoreSecret` statement by statement, the store threaded
through: line 39 `key := generateKey(32)` runs on the store as the caller passed it and
either ends the process there or yields the key; only then lines 40-43 assign
`ms.secrets[key]`, and line 44 returns the key. -/
def StoreSecretRun (ms : MemoryStore) (rand : RandSource) (now : Int) (secret : String)
    (ttl : Int) : StoreEnd :=
  match generateKey 32 rand with
  | none => StoreEnd.exited ms
  | some key =>
    let ms1 : MemoryStore :=
      { secrets := mapInsert ms.secrets key { Value := secret, ExpiresAt := now + ttl } }
    StoreEnd.returned key ms1

/-- The method `MemoryStore.GetSecret`, run with clock reading `now`.  The result is
the returned pair `(value, found)` and the store afterwards. -/
def GetSecret (ms : MemoryStore) (now : Int) (key : String) : (String × Bool) × MemoryStore :=
  let (secret, exists_) : Secret × Bool :=
    match mapLookup ms.secrets key with
    | some s => (s, true)
    | none => ({ Value := "", ExpiresAt := 0 }, false)
  if !exists_ || decide (secret.ExpiresAt < now) then
    (("", false), { secrets := mapDelete ms.secrets key })
  else
    ((secret.Value, true), { secrets := mapDelete ms.secrets key })

/-! ## Sequences of calls -/

/-- One call on the store together with its clock reading. -/
inductive Call where
  | store (rand : RandSource) (now : Int) (secret : String) (ttl : Int)
  | get (now : Int) (key : String)

/-- What a completed call returned. -/
inductive Outcome where
  | stored (key : String)
  | got (value : String) (found : Bool)
deriving DecidableEq, Repr

/-- One call: the outcome and the store afterwards, `none` when the process ended. -/
def step (ms : MemoryStore) : Call → Option (Outcome × MemoryStore)
  | .store rand now secret ttl =>
    match StoreSecret ms rand now secret ttl with
    | none => none
    | some (key, ms') => some (.stored key, ms')
  | .get now key =>
    let r := GetSecret ms now key
    some (.got r.1.1 r.1.2, r.2)

/-- A sequence of calls run one after the other: for every completed call, the
call, its outcome and the store right after it.  The run ends when the process does. -/
def run (ms : MemoryStore) : List Call → List (Call × Outcome × MemoryStore)
  | [] => []
  | c :: cs =>
    match step ms c with
    | none => []
    | some (o, ms') => (c, o, ms') :: run ms' cs

/-- A sequence of `GetSecret` calls, each with its clock reading and key, run one
after the other: the results in order. -/
def getSecrets (ms : MemoryStore) : List (Int × String) → List (String × Bool)
  | [] => []
  | (now, key) :: cs => (GetSecret ms now key).1 :: getSecrets (GetSecret ms now key).2 cs

/-- The store after the calls of a sequence: each call runs on the store the previous
one left.  When a `StoreSecret` ends the process, the store is the one that call left at
its exit and the remaining calls do not run. -/
def finalStore (ms : MemoryStore) : List Call → MemoryStore
  | [] => ms
  | .store rand now secret ttl :: cs =>
    match StoreSecretRun ms rand now secret ttl with
    | .exited ms' => ms'
    | .returned _ ms' => finalStore ms' cs
  | .get now key :: cs => finalStore (GetSecret ms now key).2 cs

/-- The key a `StoreSecret` call generates from its random source, if any. -/
def Call.generated : Call → Option String
  | .store rand _ _ _ => generateKey 32 rand
  | .get _ _ => none

/-- A call touches key `k` when it is `GetSecret(k)` or a `StoreSecret` that
generates `k`. -/
def Call.touches (k : String) : Call → Bool
  | .store rand _ _ _ => decide (generateKey 32 rand = some k)
  | .get _ key => decide (key = k)

/-! ## Size of the map -/

/-- The builtin `len(m)`: the number of entries of the map. -/
def mapLen (m : SecretMap) : Nat := m.length

/-- A Go map holds one entry per key: the keys of the association list are distinct.
The empty map has distinct keys and the map operations keep them distinct. -/
def distinctKeys (m : SecretMap) : Prop := (m.map Prod.fst).Nodup

instance (m : SecretMap) : Decidable (distinctKeys m) := by
  unfold distinctKeys
  infer_instance

/-! ## HTTP handlers -/

/-- The fields of `*http.Request` the handlers read: `r.Method`, `r.Host`, `r.URL.Path`,
and the outcome of `ioutil.ReadAll(r.Body)` as the bytes read and whether `err != nil`. -/
structure Request where
  Method : String
  Host : String
  Path : String
  Body : String
  BodyErr : Bool

/-- What a handler wrote to its `http.ResponseWriter`: the status code and the body. -/
structure Response where
  Status : Nat
  Body : String
deriving DecidableEq, Repr

/-- The helper `http.Error(w, msg, code)`: the status `code` and the message followed by a
newline. -/
def httpError (msg : String) (code : Nat) : Response :=
  { Status := code, Body := msg ++ "\n" }

/-- The constant `time.Hour`, in nanoseconds. -/
def Hour : Int := 60 * 60 * 1000000000

/-- The function `StoreSecretHandler` on the global `memoryStore`, passed as `ms`.  The
result is the response and the store afterwards, or `none` when `generateKey` ends the
process.  A response written without an explicit status has status 200. -/
def StoreSecretHandler (ms : MemoryStore) (rand : RandSource) (now : Int) (r : Request) :
    Option (Response × MemoryStore) :=
  if r.Method ≠ "POST" then
    some (httpError "Invalid request method" 405, ms)
  else if r.BodyErr || r.Body.length == 0 then
    some (httpError "Secret cannot be empty" 400, ms)
  else
    match StoreSecret ms rand now r.Body Hour with
    | none => none
    | some (key, ms') =>
      let secretURL := r.Host ++ "/secret/" ++ key
      some ({ Status := 200, Body := "Secret stored. Access it at: http://" ++ secretURL ++ "\n" },
        ms')

/-- The byte slice `s[n:]` of a text given by its characters, each character taking
`Char.utf8Size` bytes: the rest of the text from byte offset `n`.  The result is `none`
when the offset falls inside a character or past the end; the bytes of the slice are then
not a text. -/
def sliceFrom : List Char → Nat → Option (List Char)
  | cs, 0 => some cs
  | [], _ + 1 => none
  | c :: cs, n + 1 => if c.utf8Size ≤ n + 1 then sliceFrom cs (n + 1 - c.utf8Size) else none

/-- The function `GetSecretHandler` on the global `memoryStore`, passed as `ms`.  The
result is the response and the store afterwards, or `none` when the slice expression
`r.URL.Path[len("/secret/"):]` is out of bounds, the path being shorter than eight bytes.
When the slice starts inside a character, `key` is a non-empty byte string that is not a
text: no key of the map equals it, so `GetSecret` returns `("", false)`, its `delete`
removes nothing, and the handler answers 404. -/
def GetSecretHandler (ms : MemoryStore) (now : Int) (r : Request) :
    Option (Response × MemoryStore) :=
  if r.Path.utf8ByteSize < "/secret/".utf8ByteSize then
    none
  else
    match sliceFrom r.Path.data "/secret/".utf8ByteSize with
    | none => some (httpError "Secret not found or has expired" 404, ms)
    | some rest =>
      let key := String.mk rest
      if key = "" then
        some (httpError "Secret key is required" 400, ms)
      else
        let res := GetSecret ms now key
        if !res.1.2 then
          some (httpError "Secret not found or has expired" 404, res.2)
        else
          some ({ Status := 200, Body := "Your secret is: " ++ res.1.1 ++ "\n" }, res.2)

/-! ## Concurrent calls of `GetSecret` -/

/-- The store shared by the goroutines: the mutex `ms.mu` and the map `ms.secrets`. -/
structure SharedStore where
  locked : Bool
  secrets : SecretMap
deriving DecidableEq, Repr

/-- Where a goroutine running `GetSecret(key)` stands, with its local variables:
before `ms.mu.Lock()`; holding the mutex before the map read; before the `if` with
`secret` and `exists`; before the `delete` and before the `return` of either branch; and
after the return, the deferred `ms.mu.Unlock()` done, with the values returned. -/
inductive GetPc where
  | atLock
  | atLookup
  | atCheck (secret : Secret) (exists_ : Bool)
  | atDeleteMiss
  | atReturnMiss
  | atDeleteHit (secret : Secret)
  | atReturnHit (secret : Secret)
  | returned (value : String) (found : Bool)
deriving DecidableEq, Repr

/-- One statement of `GetSecret(key)` run by a goroutine, `now` being the clock reading
at that moment (read by `time.Now()` in the `if`).  The result is `none` when the
goroutine cannot move: it waits for the mutex, or it has returned. -/
def getStep (key : String) (now : Int) (sh : SharedStore) : GetPc → Option (SharedStore × GetPc)
  | .atLock => if sh.locked then none else some ({ sh with locked := true }, .atLookup)
  | .atLookup =>
    match mapLookup sh.secrets key with
    | some s => some (sh, .atCheck s true)
    | none => some (sh, .atCheck { Value := "", ExpiresAt := 0 } false)
  | .atCheck secret exists_ =>
    if !exists_ || decide (secret.ExpiresAt < now) then some (sh, .atDeleteMiss)
    else some (sh, .atDeleteHit secret)
  | .atDeleteMiss => some ({ sh with secrets := mapDelete sh.secrets key }, .atReturnMiss)
  | .atReturnMiss => some ({ sh with locked := false }, .returned "" false)
  | .atDeleteHit secret =>
    some ({ sh with secrets := mapDelete sh.secrets key }, .atReturnHit secret)
  | .atReturnHit secret => some ({ sh with locked := false }, .returned secret.Value true)
  | .returned _ _ => none

/-- The shared store and the goroutines, each running `GetSecret(key)`. -/
structure System where
  shared : SharedStore
  threads : List GetPc
deriving DecidableEq, Repr

/-- The scheduler lets goroutine `i` run its next statement at clock reading `now`;
nothing happens when the goroutine cannot move. -/
def sysStep (key : String) (st : System) (i : Nat) (now : Int) : System :=
  match st.threads[i]? with
  | none => st
  | some pc =>
    match getStep key now st.shared pc with
    | none => st
    | some (sh, pc') => { shared := sh, threads := st.threads.set i pc' }

/-- An interleaving: the goroutine chosen at each step and the clock reading then. -/
def runSchedule (key : String) (st : System) : List (Nat × Int) → System
  | [] => st
  | (i, now) :: rest => runSchedule key (sysStep key st i now) rest

/-- The start of `n` concurrent calls on a store with map `m`: the mutex is free and
every goroutine is before its `Lock`. -/
def initialSystem (m : SecretMap) (n : Nat) : System :=
  { shared := { locked := false, secrets := m }, threads := List.replicate n .atLock }

/-- The goroutine has returned. -/
def GetPc.isReturned : GetPc → Bool
  | .returned _ _ => true
  | _ => false

/-- The goroutine holds the mutex. -/
def GetPc.inCrit : GetPc → Bool
  | .atLock => false
  | .returned _ _ => false
  | _ => true

/-- The goroutine has removed the entry on the delivering branch. -/
def GetPc.won : GetPc → Bool
  | .atReturnHit _ => true
  | .returned _ true => true
  | _ => false

/-- The statements a goroutine still has to run. -/
def GetPc.remaining : GetPc → Nat
  | .atLock => 5
  | .atLookup => 4
  | .atCheck _ _ => 3
  | .atDeleteMiss => 2
  | .atDeleteHit _ => 2
  | .atReturnMiss => 1
  | .atReturnHit _ => 1
  | .returned _ _ => 0

/-- What the local state of a goroutine says about the entry at the key, `look` being the
current map read at the key and `s` the secret stored at the start. -/
def GetPc.ok (s : Secret) (look : Option Secret) : GetPc → Prop
  | .atLock => True
  | .atLookup => True
  | .atCheck secret exists_ =>
    (exists_ = true → look = some s ∧ secret = s) ∧ (exists_ = false → look = none)
  | .atDeleteMiss => look = none
  | .atReturnMiss => look = none
  | .atDeleteHit secret => look = some s ∧ secret = s
  | .atReturnHit secret => look = none ∧ secret = s
  | .returned value found =>
    look = none ∧ (found = true → value = s.Value) ∧ (found = false → value = "")

/-- The invariant of `n` concurrent calls of `GetSecret(key)` on a store that held the
unexpired secret `s` at `key`: at most one goroutine holds the mutex, the mutex is held
exactly when one does, at most one goroutine took the delivering branch, the entry is
either still `s` or gone, one goroutine took the delivering branch once it is gone, and
every local state agrees with the map. -/
structure Inv (key : String) (s : Secret) (st : System) : Prop where
  mutex : ∀ (i j : Nat) (p q : GetPc), st.threads[i]? = some p → st.threads[j]? = some q →
    p.inCrit = true → q.inCrit = true → i = j
  held : st.shared.locked = true ↔
    ∃ (i : Nat) (p : GetPc), st.threads[i]? = some p ∧ p.inCrit = true
  oneWinner : ∀ (i j : Nat) (p q : GetPc), st.threads[i]? = some p →
    st.threads[j]? = some q → p.won = true → q.won = true → i = j
  entry : mapLookup st.shared.secrets key = some s ∨ mapLookup st.shared.secrets key = none
  winner : mapLookup st.shared.secrets key = none →
    ∃ (i : Nat) (p : GetPc), st.threads[i]? = some p ∧ p.won = true
  localOk : ∀ (i : Nat) (p : GetPc), st.threads[i]? = some p →
    p.ok s (mapLookup st.shared.secrets key)

/-! ## Sample values -/

/-- A random source that returns only zero bytes. -/
def zeroStream : Nat → Byte := fun _ => 0

/-- The key generated from thirty-two zero bytes. -/
def zeroKey : String := "AAAAAAAAAAAAAAAAAAAAAAAAAAAAAAAAAAAAAAAAAAA="

/-- A random source that returns only the byte 255. -/
def onesStream : Nat → Byte := fun _ => 255

/-- The key generated from thirty-two bytes 255. -/
def onesKey : String := "__________________________________________8="

/-! ## Lemmas on the map operations -/

theorem mapLookup_mapDelete_self (m : SecretMap) (k : String) :
    mapLookup (mapDelete m k) k = none := by
  induction m with
  | nil => rfl
  | cons e rest ih =>
    obtain ⟨k0, v0⟩ := e
    by_cases h : k0 = k
    · simp [mapDelete, h, ih]
    · simp [mapDelete, mapLookup, h, ih]

theorem mapLookup_mapDelete_ne (m : SecretMap) {k k' : String} (hne : k' ≠ k) :
    mapLookup (mapDelete m k) k' = mapLookup m k' := by
  induction m with
  | nil => rfl
  | cons e rest ih =>
    obtain ⟨k0, v0⟩ := e
    by_cases h : k0 = k
    · have h' : ¬ k0 = k' := fun h1 => hne (h1 ▸ h)
      simp only [mapDelete, mapLookup, if_pos h, if_neg h', ih]
    · by_cases h2 : k0 = k'
      · simp only [mapDelete, mapLookup, if_neg h, if_pos h2]
      · simp only [mapDelete, mapLookup, if_neg h, if_neg h2, ih]

theorem mapDelete_of_lookup_none (m : SecretMap) (k : String)
    (h : mapLookup m k = none) : mapDelete m k = m := by
  induction m with
  | nil => rfl
  | cons e rest ih =>
    obtain ⟨k0, v0⟩ := e
    by_cases h0 : k0 = k
    · simp [mapLookup, h0] at h
    · simp only [mapLookup, h0, if_false] at h
      simp [mapDelete, h0, ih h]

theorem mapLookup_mapInsert_self (m : SecretMap) (k : String) (v : Secret) :
    mapLookup (mapInsert m k v) k = some v := by
  simp [mapInsert, mapLookup]

theorem mapLookup_mapInsert_ne (m : SecretMap) {k k' : String} (v : Secret) (hne : k' ≠ k) :
    mapLookup (mapInsert m k v) k' = mapLookup m k' := by
  have h : ¬ k = k' := fun h => hne h.symm
  simp [mapInsert, mapLookup, h, mapLookup_mapDelete_ne m hne]

/-! ## Lemmas on `GetSecret` and `StoreSecret` -/

theorem GetSecret_store (ms : MemoryStore) (now : Int) (key : String) :
    (GetSecret ms now key).2 = { secrets := mapDelete ms.secrets key } := by
  unfold GetSecret
  cases mapLookup ms.secrets key with
  | none => simp
  | some s => by_cases h : s.ExpiresAt < now <;> simp [h]

theorem GetSecret_absent (ms : MemoryStore) (now : Int) (key : String)
    (h : mapLookup ms.secrets key = none) : (GetSecret ms now key).1 = ("", false) := by
  simp [GetSecret, h]

theorem GetSecret_expired (ms : MemoryStore) (now : Int) (key : String) (s : Secret)
    (h : mapLookup ms.secrets key = some s) (hexp : s.ExpiresAt < now) :
    (GetSecret ms now key).1 = ("", false) := by
  simp [GetSecret, h, hexp]

theorem GetSecret_live (ms : MemoryStore) (now : Int) (key : String) (s : Secret)
    (h : mapLookup ms.secrets key = some s) (hlive : now ≤ s.ExpiresAt) :
    (GetSecret ms now key).1 = (s.Value, true) := by
  have h' : ¬ s.ExpiresAt < now := not_lt.mpr hlive
  simp [GetSecret, h, h']

theorem GetSecret_lookup_self (ms : MemoryStore) (now : Int) (key : String) :
    mapLookup (GetSecret ms now key).2.secrets key = none := by
  rw [GetSecret_store]
  exact mapLookup_mapDelete_self _ _

theorem GetSecret_lookup_ne (ms : MemoryStore) (now : Int) {key k' : String} (hne : k' ≠ key) :
    mapLookup (GetSecret ms now key).2.secrets k' = mapLookup ms.secrets k' := by
  rw [GetSecret_store]
  exact mapLookup_mapDelete_ne _ hne

theorem StoreSecret_eq (ms : MemoryStore) (rand : RandSource) (now : Int) (secret : String)
    (ttl : Int) (k : String) (hk : generateKey 32 rand = some k) :
    StoreSecret ms rand now secret ttl =
      some (k, { secrets := mapInsert ms.secrets k { Value := secret, ExpiresAt := now + ttl } }) := by
  simp [StoreSecret, hk]

theorem StoreSecret_some (ms ms' : MemoryStore) (rand : RandSource) (now : Int)
    (secret : String) (ttl : Int) (k : String)
    (h : StoreSecret ms rand now secret ttl = some (k, ms')) :
    generateKey 32 rand = some k ∧
      ms' = { secrets := mapInsert ms.secrets k { Value := secret, ExpiresAt := now + ttl } } := by
  unfold StoreSecret at h
  cases hg : generateKey 32 rand with
  | none => simp [hg] at h
  | some key =>
    simp only [hg, Option.some.injEq, Prod.mk.injEq] at h
    obtain ⟨h1, h2⟩ := h
    subst h1
    exact ⟨rfl, h2.symm⟩

theorem step_lookup_untouched (ms ms' : MemoryStore) (c : Call) (o : Outcome) (k : String)
    (hc : c.touches k = false) (h : step ms c = some (o, ms')) :
    mapLookup ms'.secrets k = mapLookup ms.secrets k := by
  cases c with
  | store rand now secret ttl =>
    simp only [Call.touches, decide_eq_false_iff_not] at hc
    cases hg : generateKey 32 rand with
    | none => simp [step, StoreSecret, hg] at h
    | some key =>
      simp only [step, StoreSecret_eq ms rand now secret ttl key hg, Option.some.injEq,
        Prod.mk.injEq] at h
      have hne : k ≠ key := fun hk => hc (by rw [hg, hk])
      rw [← h.2]
      exact mapLookup_mapInsert_ne _ _ hne
  | get now key =>
    simp only [Call.touches, decide_eq_false_iff_not] at hc
    simp only [step, Option.some.injEq, Prod.mk.injEq] at h
    have hne : k ≠ key := fun hk => hc hk.symm
    rw [← h.2]
    exact GetSecret_lookup_ne ms now hne

theorem StoreSecretRun_of_none (ms : MemoryStore) (rand : RandSource) (now : Int)
    (secret : String) (ttl : Int) (hg : generateKey 32 rand = none) :
    StoreSecretRun ms rand now secret ttl = StoreEnd.exited ms := by
  simp only [StoreSecretRun, hg]

theorem StoreSecretRun_of_some (ms : MemoryStore) (rand : RandSource) (now : Int)
    (secret : String) (ttl : Int) (k : String) (hg : generateKey 32 rand = some k) :
    StoreSecretRun ms rand now secret ttl = StoreEnd.returned k
      { secrets := mapInsert ms.secrets k { Value := secret, ExpiresAt := now + ttl } } := by
  simp only [StoreSecretRun, hg]

theorem finalStore_lookup_untouched (k : String) (calls : List Call) :
    ∀ ms : MemoryStore, (∀ c ∈ calls, c.touches k = false) →
      mapLookup (finalStore ms calls).secrets k = mapLookup ms.secrets k := by
  induction calls with
  | nil => intro ms _; rfl
  | cons c cs ih =>
    intro ms hall
    have hc : c.touches k = false := hall c (List.mem_cons_self _ _)
    have hcs : ∀ c' ∈ cs, c'.touches k = false := fun c' hc' => hall c' (List.mem_cons_of_mem _ hc')
    cases c with
    | store rand now secret ttl =>
      simp only [Call.touches, decide_eq_false_iff_not] at hc
      cases hg : generateKey 32 rand with
      | none => simp only [finalStore, StoreSecretRun_of_none ms rand now secret ttl hg]
      | some key =>
        have hne : k ≠ key := fun hk => hc (by rw [hg, hk])
        simp only [finalStore, StoreSecretRun_of_some ms rand now secret ttl key hg]
        rw [ih _ hcs]
        exact mapLookup_mapInsert_ne _ _ hne
    | get now key =>
      simp only [Call.touches, decide_eq_false_iff_not] at hc
      have hne : k ≠ key := fun hk => hc hk.symm
      simp only [finalStore]
      rw [ih _ hcs]
      exact GetSecret_lookup_ne ms now hne

theorem run_absent (k : String) (calls : List Call) :
    ∀ ms : MemoryStore, mapLookup ms.secrets k = none →
      (∀ c ∈ calls, c.generated ≠ some k) →
      ∀ e ∈ run ms calls, mapLookup e.2.2.secrets k = none ∧
        ∀ now, e.1 = Call.get now k → e.2.1 = Outcome.got "" false := by
  induction calls with
  | nil => intro ms _ _ e he; simp [run] at he
  | cons c cs ih =>
    intro ms habs hgen e he
    have hc : c.generated ≠ some k := hgen c (List.mem_cons_self _ _)
    have hcs : ∀ c' ∈ cs, c'.generated ≠ some k :=
      fun c' hc' => hgen c' (List.mem_cons_of_mem _ hc')
    cases hs : step ms c with
    | none => simp [run, hs] at he
    | some r =>
      obtain ⟨o, ms'⟩ := r
      simp only [run, hs, List.mem_cons] at he
      have habs' : mapLookup ms'.secrets k = none := by
        cases c with
        | store rand now secret ttl =>
          have ht : (Call.store rand now secret ttl).touches k = false := by
            simp only [Call.touches, decide_eq_false_iff_not]
            exact hc
          rw [step_lookup_untouched ms ms' _ o k ht hs]
          exact habs
        | get now key =>
          simp only [step, Option.some.injEq, Prod.mk.injEq] at hs
          rw [← hs.2, GetSecret_store]
          by_cases hk : k = key
          · rw [hk]; exact mapLookup_mapDelete_self _ _
          · rw [mapLookup_mapDelete_ne _ hk]; exact habs
      rcases he with he | he
      · subst he
        refine ⟨habs', ?_⟩
        intro now hnow
        simp only at hnow
        subst hnow
        simp only [step, Option.some.injEq, Prod.mk.injEq] at hs
        rw [← hs.1]
        have := GetSecret_absent ms now k habs
        rw [Prod.ext_iff] at this
        simp only at this
        rw [this.1, this.2]
      · exact ih ms' habs' hcs e he

theorem getSecrets_absent (k : String) (calls : List (Int × String)) :
    ∀ ms : MemoryStore, mapLookup ms.secrets k = none →
      (calls.zip (getSecrets ms calls)).countP
        (fun cr => decide (cr.1.2 = k) && cr.2.2) = 0 := by
  induction calls with
  | nil => intro ms _; rfl
  | cons c cs ih =>
    intro ms habs
    obtain ⟨now, key⟩ := c
    have habs' : mapLookup (GetSecret ms now key).2.secrets k = none := by
      by_cases hk : k = key
      · rw [hk]; exact GetSecret_lookup_self ms now key
      · rw [GetSecret_lookup_ne ms now hk]; exact habs
    simp only [getSecrets, List.zip_cons_cons, List.countP_cons, ih _ habs', zero_add]
    by_cases hk : key = k
    · subst hk
      simp [GetSecret_absent ms now key habs]
    · simp [hk]

theorem getSecrets_at_most_once (k : String) (calls : List (Int × String)) :
    ∀ ms : MemoryStore,
      (calls.zip (getSecrets ms calls)).countP
        (fun cr => decide (cr.1.2 = k) && cr.2.2) ≤ 1 := by
  induction calls with
  | nil => intro ms; simp [getSecrets]
  | cons c cs ih =>
    intro ms
    obtain ⟨now, key⟩ := c
    simp only [getSecrets, List.zip_cons_cons, List.countP_cons]
    by_cases hk : key = k
    · subst hk
      rw [getSecrets_absent key cs _ (GetSecret_lookup_self ms now key)]
      split <;> simp
    · have := ih (GetSecret ms now key).2
      simp only [hk, decide_False, Bool.false_and, Bool.false_eq_true, if_false, add_zero]
      exact this

/-! ## The store contract -/

/-- Claim C1: round trip.  If `StoreSecret(P, T)` with a positive ttl `T` runs at time `t`
and returns key `k`, then `GetSecret(k)` run on the resulting store at any time `t'` with
`t ≤ t' < t + T` returns exactly `(P, true)`. -/
theorem store_then_get_roundtrip (ms ms' : MemoryStore) (rand : RandSource) (P : String)
    (T t t' : Int) (k : String) (_hT : 0 < T)
    (hstore : StoreSecret ms rand t P T = some (k, ms'))
    (_hnow : t ≤ t') (hbefore : t' < t + T) :
    (GetSecret ms' t' k).1 = (P, true) := by
  obtain ⟨_, hms'⟩ := StoreSecret_some ms ms' rand t P T k hstore
  have hl : mapLookup ms'.secrets k = some { Value := P, ExpiresAt := t + T } := by
    rw [hms']; exact mapLookup_mapInsert_self _ _ _
  exact GetSecret_live ms' t' k _ hl (le_of_lt hbefore)

theorem store_then_get_roundtrip_witness :
    StoreSecret NewMemoryStore (some zeroStream) 10 "hello" 5
        = some (zeroKey, { secrets := [(zeroKey, { Value := "hello", ExpiresAt := 15 })] }) ∧
      (GetSecret { secrets := [(zeroKey, { Value := "hello", ExpiresAt := 15 })] } 12 zeroKey).1
        = ("hello", true) :=
  ⟨by decide,
    store_then_get_roundtrip NewMemoryStore _ (some zeroStream) "hello" 5 10 12 zeroKey
      (by decide) (by decide) (by decide) (by decide)⟩

/-- Claim C2: exactly-once delivery for sequential calls.  A `GetSecret(k)` made right
after a `GetSecret(k)` that returned `found = true` returns `found = false`, at any two
clock readings; and in every sequence of `GetSecret` calls (any keys, any times) at most
one call with key `k` returns `found = true`. -/
theorem get_exactly_once (ms : MemoryStore) (k : String) :
    (∀ t1 t2 : Int, (GetSecret ms t1 k).1.2 = true →
        (GetSecret (GetSecret ms t1 k).2 t2 k).1.2 = false) ∧
      ∀ calls : List (Int × String),
        (calls.zip (getSecrets ms calls)).countP
          (fun cr => decide (cr.1.2 = k) && cr.2.2) ≤ 1 := by
  refine ⟨?_, fun calls => getSecrets_at_most_once k calls ms⟩
  intro t1 t2 _
  rw [GetSecret_absent _ t2 k (GetSecret_lookup_self ms t1 k)]

theorem get_exactly_once_witness :
    (GetSecret { secrets := [("k", { Value := "hello", ExpiresAt := 15 })] } 12 "k").1.2 = true ∧
      (GetSecret (GetSecret { secrets := [("k", { Value := "hello", ExpiresAt := 15 })] }
        12 "k").2 12 "k").1.2 = false :=
  ⟨by decide,
    (get_exactly_once { secrets := [("k", { Value := "hello", ExpiresAt := 15 })] } "k").1
      12 12 (by decide)⟩

/-- Claim C3, as stated, fails at the expiry instant: with `k` stored with expiry time `5`,
`GetSecret(k)` at clock reading `5` returns the stored payload with `found = true`. -/
theorem get_at_expiry_instant_delivers :
    mapLookup [("k", { Value := "s", ExpiresAt := 5 })] "k"
        = some { Value := "s", ExpiresAt := 5 } ∧
      (GetSecret { secrets := [("k", { Value := "s", ExpiresAt := 5 })] } 5 "k").1
        = ("s", true) := by
  decide

/-- Claim C3, amended: when `k` is present with expiry time `e` and the clock reading is
strictly after `e`, `GetSecret(k)` returns `("", false)` and removes the entry; at the
expiry instant itself the entry is still delivered. -/
theorem get_after_expiry_not_found (ms : MemoryStore) (k : String) (s : Secret) (now : Int)
    (hpresent : mapLookup ms.secrets k = some s) :
    (s.ExpiresAt < now →
        (GetSecret ms now k).1 = ("", false) ∧
          mapLookup (GetSecret ms now k).2.secrets k = none) ∧
      (now = s.ExpiresAt → (GetSecret ms now k).1 = (s.Value, true)) := by
  refine ⟨fun hexp => ⟨GetSecret_expired ms now k s hpresent hexp,
    GetSecret_lookup_self ms now k⟩, fun heq => ?_⟩
  exact GetSecret_live ms now k s hpresent (le_of_eq heq)

theorem get_after_expiry_not_found_witness :
    (GetSecret { secrets := [("k", { Value := "s", ExpiresAt := 5 })] } 6 "k").1 = ("", false) ∧
      mapLookup (GetSecret { secrets := [("k", { Value := "s", ExpiresAt := 5 })] } 6 "k").2.secrets
        "k" = none :=
  (get_after_expiry_not_found { secrets := [("k", { Value := "s", ExpiresAt := 5 })] } "k"
    { Value := "s", ExpiresAt := 5 } 6 (by decide)).1 (by decide)

/-- Claim C4: lazy expiry.  If `StoreSecret(P, T)` with a positive ttl runs at time `t` and
returns `k`, and the calls made afterwards do not touch `k`, then `GetSecret(k)` at any
time `t'` with `t + T < t'` returns `("", false)`, and `k` is absent afterwards. -/
theorem get_after_ttl_not_found (ms ms1 : MemoryStore) (rand : RandSource) (P : String)
    (T t t' : Int) (k : String) (calls : List Call) (_hT : 0 < T)
    (hstore : StoreSecret ms rand t P T = some (k, ms1))
    (huntouched : ∀ c ∈ calls, c.touches k = false)
    (hlate : t + T < t') :
    (GetSecret (finalStore ms1 calls) t' k).1 = ("", false) ∧
      mapLookup (GetSecret (finalStore ms1 calls) t' k).2.secrets k = none := by
  obtain ⟨_, hms1⟩ := StoreSecret_some ms ms1 rand t P T k hstore
  have hl : mapLookup (finalStore ms1 calls).secrets k
      = some { Value := P, ExpiresAt := t + T } := by
    rw [finalStore_lookup_untouched k calls ms1 huntouched, hms1]
    exact mapLookup_mapInsert_self _ _ _
  exact ⟨GetSecret_expired _ t' k _ hl hlate, GetSecret_lookup_self _ t' k⟩

theorem get_after_ttl_not_found_witness :
    (GetSecret (finalStore { secrets := [(zeroKey, { Value := "x", ExpiresAt := 1 })] }
        [Call.get 3 "other", Call.store (some onesStream) 4 "y" 100]) 10 zeroKey).1
        = ("", false) ∧
      mapLookup (GetSecret (finalStore { secrets := [(zeroKey, { Value := "x", ExpiresAt := 1 })] }
        [Call.get 3 "other", Call.store (some onesStream) 4 "y" 100]) 10 zeroKey).2.secrets
        zeroKey = none :=
  get_after_ttl_not_found NewMemoryStore _ (some zeroStream) "x" 1 0 10 zeroKey
    [Call.get 3 "other", Call.store (some onesStream) 4 "y" 100]
    (by decide) (by decide) (by decide) (by decide)

/-- Claim C5: unknown key.  For every store, clock reading and string `k` that is not a
key of the mapping, `GetSecret(k)` returns `("", false)` and leaves the store exactly as
it was. -/
theorem get_unknown_key (ms : MemoryStore) (now : Int) (k : String)
    (habsent : mapLookup ms.secrets k = none) :
    GetSecret ms now k = (("", false), ms) := by
  apply Prod.ext
  · exact GetSecret_absent ms now k habsent
  · rw [GetSecret_store, mapDelete_of_lookup_none _ _ habsent]

theorem get_unknown_key_witness :
    GetSecret { secrets := [("k", { Value := "s", ExpiresAt := 5 })] } 3 ""
      = (("", false), { secrets := [("k", { Value := "s", ExpiresAt := 5 })] }) :=
  get_unknown_key { secrets := [("k", { Value := "s", ExpiresAt := 5 })] } 3 "" (by decide)

/-- Claim C6: `GetSecret` removes only its own key.  After `GetSecret(k)`, whatever it
returned, `k` is absent from the mapping and every other key maps to exactly the same
entry as before. -/
theorem get_removes_only_own_key (ms : MemoryStore) (now : Int) (k : String) :
    mapLookup (GetSecret ms now k).2.secrets k = none ∧
      ∀ k' : String, k' ≠ k →
        mapLookup (GetSecret ms now k).2.secrets k' = mapLookup ms.secrets k' :=
  ⟨GetSecret_lookup_self ms now k, fun _ hne => GetSecret_lookup_ne ms now hne⟩

theorem get_removes_only_own_key_witness :
    mapLookup (GetSecret { secrets := [("a", { Value := "s", ExpiresAt := 5 }),
        ("b", { Value := "old", ExpiresAt := 1 })] } 9 "a").2.secrets "b"
      = mapLookup [("a", { Value := "s", ExpiresAt := 5 }),
        ("b", { Value := "old", ExpiresAt := 1 })] "b" :=
  (get_removes_only_own_key { secrets := [("a", { Value := "s", ExpiresAt := 5 }),
    ("b", { Value := "old", ExpiresAt := 1 })] } 9 "a").2 "b" (by decide)

/-- Claim C7: `StoreSecret` postcondition.  When the generator yields key `k`,
`StoreSecret(P, T)` at time `t` returns `k`, the mapping afterwards holds at `k` the entry
`(P, t + T)`, and every other key maps to exactly the same entry as before. -/
theorem store_postcondition (ms : MemoryStore) (rand : RandSource) (P : String) (T t : Int)
    (k : String) (hk : generateKey 32 rand = some k) :
    ∃ ms' : MemoryStore, StoreSecret ms rand t P T = some (k, ms') ∧
      mapLookup ms'.secrets k = some { Value := P, ExpiresAt := t + T } ∧
      ∀ k' : String, k' ≠ k → mapLookup ms'.secrets k' = mapLookup ms.secrets k' :=
  ⟨_, StoreSecret_eq ms rand t P T k hk, mapLookup_mapInsert_self _ _ _,
    fun _ hne => mapLookup_mapInsert_ne _ _ hne⟩

theorem store_postcondition_witness :
    ∃ ms' : MemoryStore,
      StoreSecret { secrets := [("b", { Value := "old", ExpiresAt := 1 })] } (some zeroStream)
        10 "hello" 5 = some (zeroKey, ms') ∧
      mapLookup ms'.secrets zeroKey = some { Value := "hello", ExpiresAt := 10 + 5 } ∧
      ∀ k' : String, k' ≠ zeroKey → mapLookup ms'.secrets k'
        = mapLookup [("b", { Value := "old", ExpiresAt := 1 })] k' :=
  store_postcondition { secrets := [("b", { Value := "old", ExpiresAt := 1 })] }
    (some zeroStream) "hello" 5 10 zeroKey (by decide)

/-- Claim C8, as stated, fails when the generator repeats a key: `zeroKey` is consumed by
a successful `GetSecret`, then a `StoreSecret` whose random source returns the same
thirty-two bytes stores `zeroKey` again and the next `GetSecret(zeroKey)` returns
`found = true`. -/
theorem consumed_key_stored_again :
    (GetSecret { secrets := [(zeroKey, { Value := "old", ExpiresAt := 10 })] } 0 zeroKey).1
        = ("old", true) ∧
      (GetSecret { secrets := [(zeroKey, { Value := "old", ExpiresAt := 10 })] } 0 zeroKey).2
        = { secrets := [] } ∧
      (run { secrets := [] }
          [Call.store (some zeroStream) 1 "new" 5, Call.get 2 zeroKey]).map
            (fun e => (e.2.1, mapLookup e.2.2.secrets zeroKey))
        = [(Outcome.stored zeroKey, some { Value := "new", ExpiresAt := 6 }),
            (Outcome.got "new" true, none)] := by
  decide

/-- Claim C8, amended: no revivification unless the generator repeats the key.  Once `k`
has left the stored state through a `GetSecret(k)`, then in every later sequence of
`StoreSecret` / `GetSecret` calls in which no `StoreSecret` generates `k` again, `k` is
absent from the mapping after every call and every `GetSecret(k)` returns `("", false)`. -/
theorem no_revivification (ms0 : MemoryStore) (now0 : Int) (k : String) (s : Secret)
    (calls : List Call)
    (_hstored : mapLookup ms0.secrets k = some s)
    (hfresh : ∀ c ∈ calls, c.generated ≠ some k) :
    ∀ e ∈ run (GetSecret ms0 now0 k).2 calls,
      mapLookup e.2.2.secrets k = none ∧
        ∀ now : Int, e.1 = Call.get now k → e.2.1 = Outcome.got "" false :=
  run_absent k calls _ (GetSecret_lookup_self ms0 now0 k) hfresh

theorem no_revivification_witness :
    mapLookup (GetSecret { secrets := [(onesKey, { Value := "new", ExpiresAt := 6 })] }
        2 zeroKey).2.secrets zeroKey = none ∧
      Outcome.got
        (GetSecret { secrets := [(onesKey, { Value := "new", ExpiresAt := 6 })] } 2 zeroKey).1.1
        (GetSecret { secrets := [(onesKey, { Value := "new", ExpiresAt := 6 })] } 2 zeroKey).1.2
        = Outcome.got "" false :=
  have h := no_revivification { secrets := [(zeroKey, { Value := "old", ExpiresAt := 10 })] }
    0 zeroKey { Value := "old", ExpiresAt := 10 }
    [Call.store (some onesStream) 1 "new" 5, Call.get 2 zeroKey] (by decide) (by decide)
    (Call.get 2 zeroKey,
      Outcome.got
        (GetSecret { secrets := [(onesKey, { Value := "new", ExpiresAt := 6 })] } 2 zeroKey).1.1
        (GetSecret { secrets := [(onesKey, { Value := "new", ExpiresAt := 6 })] } 2 zeroKey).1.2,
      (GetSecret { secrets := [(onesKey, { Value := "new", ExpiresAt := 6 })] } 2 zeroKey).2)
    (List.mem_cons_of_mem _ (List.mem_cons_self _ _))
  ⟨h.1, h.2 2 rfl⟩

/-! ## The key format -/

theorem decodeAt_encodeAt : ∀ i, i < 64 → decodeAt (encodeAt i) = i := by decide

theorem encodeAt_ne_pad : ∀ i, i < 64 → encodeAt i ≠ padChar := by decide

theorem encodeAt_urlSafe : ∀ i, i < 64 → urlSafeChar (encodeAt i) = true := by decide

theorem sextet_lt (x : Nat) : x &&& 0x3F < 64 := Nat.and_lt_two_pow x (by decide : 63 < 2 ^ 6)

theorem sextet0_eq (x : Nat) : x &&& 0x3F = x % 64 :=
  Nat.and_pow_two_sub_one_eq_mod _ 6

theorem group3_eq (b0 b1 b2 : Nat) (_h0 : b0 < 256) (h1 : b1 < 256) (h2 : b2 < 256) :
    b0 <<< 16 ||| b1 <<< 8 ||| b2 = b0 * 65536 + b1 * 256 + b2 := by
  have e1 : b1 <<< 8 ||| b2 = b1 * 256 + b2 := by
    rw [Nat.shiftLeft_eq, Nat.mul_comm, ← Nat.mul_add_lt_is_or (by simpa using h2)]
  have e2 : b1 * 256 + b2 < 2 ^ 16 := by omega
  rw [Nat.lor_assoc, e1, Nat.shiftLeft_eq, Nat.mul_comm, ← Nat.mul_add_lt_is_or e2]
  omega

theorem group2_eq (b0 b1 : Nat) (h1 : b1 < 256) :
    b0 <<< 16 ||| b1 <<< 8 = b0 * 65536 + b1 * 256 := by
  have e2 : b1 * 256 < 2 ^ 16 := by omega
  rw [Nat.shiftLeft_eq b1, Nat.shiftLeft_eq, Nat.mul_comm b0, ← Nat.mul_add_lt_is_or e2]


theorem Decode_Encode (bs : List Byte) : Decode (Encode bs) = bs := by
  induction bs using Encode.induct with
  | case1 => rfl
  | case2 b0 =>
    obtain ⟨n0, h0⟩ := b0
    simp only [Encode, Decode, if_pos, sextet0_eq, Nat.shiftRight_eq_div_pow, decodeAt_encodeAt _ (Nat.mod_lt _ (by decide : 0 < 64)),
      Nat.shiftLeft_eq, byteOf, padChar]
    simp only [List.cons.injEq, and_true, Fin.mk.injEq]
    omega
  | case3 b0 b1 =>
    obtain ⟨n0, h0⟩ := b0
    obtain ⟨n1, h1⟩ := b1
    have hne := encodeAt_ne_pad _ (Nat.mod_lt ((n0 * 65536 + n1 * 256) / 2 ^ 6) (by decide : 0 < 64))
    simp only [Encode, Decode, group2_eq n0 n1 h1, sextet0_eq, Nat.shiftRight_eq_div_pow,
      decodeAt_encodeAt _ (Nat.mod_lt _ (by decide : 0 < 64)), byteOf, if_neg hne, if_pos]
    simp only [List.cons.injEq, and_true, Fin.mk.injEq]
    omega
  | case4 b0 b1 b2 rest ih =>
    obtain ⟨n0, h0⟩ := b0
    obtain ⟨n1, h1⟩ := b1
    obtain ⟨n2, h2⟩ := b2
    have hne2 := encodeAt_ne_pad _
      (Nat.mod_lt ((n0 * 65536 + n1 * 256 + n2) / 2 ^ 6) (by decide : 0 < 64))
    have hne3 := encodeAt_ne_pad _
      (Nat.mod_lt (n0 * 65536 + n1 * 256 + n2) (by decide : 0 < 64))
    simp only [Encode, Decode, group3_eq n0 n1 n2 h0 h1 h2, sextet0_eq, Nat.shiftRight_eq_div_pow,
      decodeAt_encodeAt _ (Nat.mod_lt _ (by decide : 0 < 64)), byteOf, if_neg hne2, if_neg hne3,
      ih]
    simp only [List.cons.injEq, and_true, Fin.mk.injEq]
    omega


theorem Encode_length (bs : List Byte) : (Encode bs).length = 4 * ((bs.length + 2) / 3) := by
  induction bs using Encode.induct with
  | case1 => rfl
  | case2 b0 => simp [Encode]
  | case3 b0 b1 => simp [Encode]
  | case4 b0 b1 b2 rest ih =>
    simp only [Encode, List.length_cons, ih]
    omega

theorem Encode_padded (bs : List Byte) (h : bs.length % 3 = 2) :
    ∃ body : List Char, Encode bs = body ++ [padChar] ∧ ∀ c ∈ body, urlSafeChar c = true := by
  induction bs using Encode.induct with
  | case1 => simp at h
  | case2 b0 => simp at h
  | case3 b0 b1 =>
    refine ⟨[encodeAt ((b0.val <<< 16 ||| b1.val <<< 8) >>> 18 &&& 0x3F),
      encodeAt ((b0.val <<< 16 ||| b1.val <<< 8) >>> 12 &&& 0x3F),
      encodeAt ((b0.val <<< 16 ||| b1.val <<< 8) >>> 6 &&& 0x3F)], rfl, ?_⟩
    intro c hc
    simp only [List.mem_cons, List.mem_singleton, List.not_mem_nil, or_false] at hc
    rcases hc with hc | hc | hc <;> rw [hc] <;> exact encodeAt_urlSafe _ (sextet_lt _)
  | case4 b0 b1 b2 rest ih =>
    have h' : rest.length % 3 = 2 := by
      simp only [List.length_cons] at h
      omega
    obtain ⟨body, hbody, hsafe⟩ := ih h'
    refine ⟨encodeAt ((b0.val <<< 16 ||| b1.val <<< 8 ||| b2.val) >>> 18 &&& 0x3F) ::
      encodeAt ((b0.val <<< 16 ||| b1.val <<< 8 ||| b2.val) >>> 12 &&& 0x3F) ::
      encodeAt ((b0.val <<< 16 ||| b1.val <<< 8 ||| b2.val) >>> 6 &&& 0x3F) ::
      encodeAt ((b0.val <<< 16 ||| b1.val <<< 8 ||| b2.val) &&& 0x3F) :: body, ?_, ?_⟩
    · simp only [Encode, hbody, List.cons_append]
    · intro c hc
      simp only [List.mem_cons] at hc
      rcases hc with hc | hc | hc | hc | hc
      · rw [hc]; exact encodeAt_urlSafe _ (sextet_lt _)
      · rw [hc]; exact encodeAt_urlSafe _ (sextet_lt _)
      · rw [hc]; exact encodeAt_urlSafe _ (sextet_lt _)
      · rw [hc]; exact encodeAt_urlSafe _ (sextet_lt _)
      · exact hsafe c hc

theorem readBytes_length (length : Nat) (stream : Nat → Byte) :
    (readBytes length stream).length = length := by
  simp [readBytes]

/-- Claim C9: key format.  For every thirty-two random bytes, `generateKey(32)` returns a
key of 44 characters: 43 characters that are letters, digits, `-` or `_`, followed by one
trailing `=`; it contains none of `/`, `+`, `?`, `#`, `%`; and it encodes all thirty-two
bytes, which are read back from it by `Decode`. -/
theorem generateKey_format (stream : Nat → Byte) :
    ∃ (key : String) (body : List Char),
      generateKey 32 (some stream) = some key ∧
      key.length = 44 ∧
      key.toList = body ++ ['='] ∧ body.length = 43 ∧
      (∀ c ∈ body, urlSafeChar c = true) ∧
      (∀ c ∈ key.toList, c ≠ '/' ∧ c ≠ '+' ∧ c ≠ '?' ∧ c ≠ '#' ∧ c ≠ '%') ∧
      (readBytes 32 stream).length = 32 ∧
      Decode key.toList = readBytes 32 stream := by
  have hlen : (readBytes 32 stream).length = 32 := readBytes_length 32 stream
  obtain ⟨body, hbody, hsafe⟩ := Encode_padded (readBytes 32 stream) (by rw [hlen])
  have hkey : (Encode (readBytes 32 stream)).length = 44 := by
    rw [Encode_length, hlen]
  have hbl : body.length = 43 := by
    have := hkey
    rw [hbody, List.length_append, List.length_singleton] at this
    omega
  refine ⟨EncodeToString (readBytes 32 stream), body, rfl, ?_, hbody, hbl, hsafe, ?_, hlen,
    Decode_Encode _⟩
  · exact hkey
  · intro c hc
    have hc' : c ∈ body ++ [padChar] := hbody ▸ hc
    rw [List.mem_append, List.mem_singleton] at hc'
    rcases hc' with hc' | hc'
    · have hs := hsafe c hc'
      refine ⟨?_, ?_, ?_, ?_, ?_⟩ <;> (intro heq; subst heq; revert hs; decide)
    · subst hc'
      decide

/-! ## Not-found results -/

/-- Claim C10, as stated, fails at the expiry instant.  The two stores agree on every key
other than `k`; `k` is absent in the first and present with `ExpiresAt = 5` in the second,
and the clock reads `5`, so the entry has reached its expiry time.  `GetSecret(k)` returns
`("", false)` on the first store and `("s", true)` on the second: the two results
differ. -/
theorem expiry_instant_distinguishable :
    (∀ k' : String, k' ≠ "k" →
        mapLookup [("b", { Value := "v", ExpiresAt := 20 })] k'
          = mapLookup [("k", { Value := "s", ExpiresAt := 5 }),
              ("b", { Value := "v", ExpiresAt := 20 })] k') ∧
      mapLookup [("b", { Value := "v", ExpiresAt := 20 })] "k" = none ∧
      mapLookup [("k", { Value := "s", ExpiresAt := 5 }),
          ("b", { Value := "v", ExpiresAt := 20 })] "k"
        = some { Value := "s", ExpiresAt := 5 } ∧
      (5 : Int) ≥ ({ Value := "s", ExpiresAt := 5 } : Secret).ExpiresAt ∧
      (GetSecret { secrets := [("b", { Value := "v", ExpiresAt := 20 })] } 5 "k").1
        = ("", false) ∧
      (GetSecret { secrets := [("k", { Value := "s", ExpiresAt := 5 }),
          ("b", { Value := "v", ExpiresAt := 20 })] } 5 "k").1 = ("s", true) ∧
      (GetSecret { secrets := [("b", { Value := "v", ExpiresAt := 20 })] } 5 "k").1
        ≠ (GetSecret { secrets := [("k", { Value := "s", ExpiresAt := 5 }),
            ("b", { Value := "v", ExpiresAt := 20 })] } 5 "k").1 :=
  ⟨fun k' hne => by simp only [mapLookup, if_neg (Ne.symm hne)],
    by decide, by decide, by decide, by decide, by decide, by decide⟩

/-- Claim C10, amended: not-found is indistinguishable once the clock is past the expiry
time.  For two stores that agree on all keys other than `k`, where `k` is absent in one
and present in the other with the clock reading strictly after its `ExpiresAt`,
`GetSecret(k)` returns `("", false)` in both, whatever the value of the expired entry,
and leaves mappings that agree on every key. -/
theorem not_found_indistinguishable (ms1 ms2 : MemoryStore) (now : Int) (k : String)
    (s : Secret)
    (hagree : ∀ k' : String, k' ≠ k → mapLookup ms1.secrets k' = mapLookup ms2.secrets k')
    (habsent : mapLookup ms1.secrets k = none)
    (hpresent : mapLookup ms2.secrets k = some s)
    (hexpired : s.ExpiresAt < now) :
    (GetSecret ms1 now k).1 = ("", false) ∧ (GetSecret ms2 now k).1 = ("", false) ∧
      ∀ key : String, mapLookup (GetSecret ms1 now k).2.secrets key
        = mapLookup (GetSecret ms2 now k).2.secrets key := by
  refine ⟨GetSecret_absent ms1 now k habsent, GetSecret_expired ms2 now k s hpresent hexpired,
    fun key => ?_⟩
  by_cases hk : key = k
  · rw [hk, GetSecret_lookup_self, GetSecret_lookup_self]
  · rw [GetSecret_lookup_ne ms1 now hk, GetSecret_lookup_ne ms2 now hk]
    exact hagree key hk

theorem not_found_indistinguishable_witness :
    (GetSecret { secrets := [("b", { Value := "v", ExpiresAt := 20 })] } 9 "k").1 = ("", false) ∧
      (GetSecret { secrets := [("k", { Value := "s", ExpiresAt := 5 }),
        ("b", { Value := "v", ExpiresAt := 20 })] } 9 "k").1 = ("", false) ∧
      ∀ key : String,
        mapLookup (GetSecret { secrets := [("b", { Value := "v", ExpiresAt := 20 })] }
          9 "k").2.secrets key
        = mapLookup (GetSecret { secrets := [("k", { Value := "s", ExpiresAt := 5 }),
          ("b", { Value := "v", ExpiresAt := 20 })] } 9 "k").2.secrets key :=
  not_found_indistinguishable { secrets := [("b", { Value := "v", ExpiresAt := 20 })] }
    { secrets := [("k", { Value := "s", ExpiresAt := 5 }),
      ("b", { Value := "v", ExpiresAt := 20 })] } 9 "k" { Value := "s", ExpiresAt := 5 }
    (fun k' hne => by simp only [mapLookup, if_neg (Ne.symm hne)])
    (by decide) (by decide) (by decide)

/-! ## Generator failure -/

/-- Claim C11: generator failure is fatal and atomic.  When the random source reports an
error, `generateKey` returns no key, and the `StoreSecret` call ends the process at
`generateKey` with the store exactly as it was passed in: no key is returned, nothing is
inserted, changed or removed, and no later call runs.  A `StoreSecret` call ends the
process only on such an error and only with the store untouched; and whenever
`generateKey` does return a key, the source succeeded and the key is the encoding of
exactly the bytes the source delivered. -/
theorem generator_failure_is_fatal (ms : MemoryStore) (now : Int) (secret : String)
    (ttl : Int) (length : Nat) :
    generateKey length none = none ∧
      StoreSecretRun ms none now secret ttl = StoreEnd.exited ms ∧
      StoreSecret ms none now secret ttl = none ∧
      (∀ cs : List Call, run ms (Call.store none now secret ttl :: cs) = [] ∧
        finalStore ms (Call.store none now secret ttl :: cs) = ms) ∧
      (∀ (rand : RandSource) (ms' : MemoryStore),
        StoreSecretRun ms rand now secret ttl = StoreEnd.exited ms' → rand = none ∧ ms' = ms) ∧
      (∀ (rand : RandSource) (k : String) (ms' : MemoryStore),
        StoreSecretRun ms rand now secret ttl = StoreEnd.returned k ms' ↔
          StoreSecret ms rand now secret ttl = some (k, ms')) ∧
      ∀ (rand : RandSource) (k : String), generateKey length rand = some k →
        ∃ stream : Nat → Byte, rand = some stream ∧
          k = EncodeToString (readBytes length stream) := by
  refine ⟨rfl, rfl, rfl, fun cs => ⟨rfl, rfl⟩, ?_, ?_, ?_⟩
  · intro rand ms' h
    cases rand with
    | none =>
      simp only [StoreSecretRun, generateKey, StoreEnd.exited.injEq] at h
      exact ⟨rfl, h.symm⟩
    | some stream => simp [StoreSecretRun, generateKey] at h
  · intro rand k ms'
    cases hg : generateKey 32 rand with
    | none => simp [StoreSecretRun, StoreSecret, hg]
    | some key => simp [StoreSecretRun, StoreSecret, hg]
  · intro rand k hk
    cases rand with
    | none => simp [generateKey] at hk
    | some stream =>
      simp only [generateKey, Option.some.injEq] at hk
      exact ⟨stream, rfl, hk.symm⟩

theorem generator_failure_is_fatal_witness :
    generateKey 32 none = none ∧
      StoreSecretRun { secrets := [("b", { Value := "v", ExpiresAt := 20 })] } none 7 "x" 5
        = StoreEnd.exited { secrets := [("b", { Value := "v", ExpiresAt := 20 })] } ∧
      StoreSecret { secrets := [("b", { Value := "v", ExpiresAt := 20 })] } none 7 "x" 5
        = none :=
  have h := generator_failure_is_fatal
    { secrets := [("b", { Value := "v", ExpiresAt := 20 })] } 7 "x" 5 32
  ⟨h.1, h.2.1, h.2.2.1⟩

/-! ## Delivery condition -/

/-- Claim C16: exact delivery condition.  `GetSecret(k)` returns `found = true` exactly when
`k` is present and the clock reading is not after its `ExpiresAt` (`now ≤ ExpiresAt`, the
expiry instant included); then the payload is the stored `Value`; with `found = false` the
payload is the empty string. -/
theorem get_delivers_iff (ms : MemoryStore) (now : Int) (k : String) :
    ((GetSecret ms now k).1.2 = true ↔
        ∃ s : Secret, mapLookup ms.secrets k = some s ∧ now ≤ s.ExpiresAt) ∧
      (∀ s : Secret, mapLookup ms.secrets k = some s → (GetSecret ms now k).1.2 = true →
        (GetSecret ms now k).1.1 = s.Value) ∧
      ((GetSecret ms now k).1.2 = false → (GetSecret ms now k).1.1 = "") := by
  cases hl : mapLookup ms.secrets k with
  | none =>
    have h := GetSecret_absent ms now k hl
    refine ⟨?_, ?_, ?_⟩
    · rw [h]; simp
    · intro s hs; simp at hs
    · intro _; rw [h]
  | some s =>
    by_cases hexp : s.ExpiresAt < now
    · have h := GetSecret_expired ms now k s hl hexp
      refine ⟨?_, ?_, ?_⟩
      · rw [h]
        simp only [Bool.false_eq_true, Option.some.injEq, false_iff, not_exists, not_and, not_le]
        intro s' hs'
        rw [← hs']; exact hexp
      · intro s' _ hf; rw [h] at hf; simp at hf
      · intro _; rw [h]
    · have hle : now ≤ s.ExpiresAt := not_lt.mp hexp
      have h := GetSecret_live ms now k s hl hle
      refine ⟨?_, ?_, ?_⟩
      · rw [h]
        simp only [true_iff]
        exact ⟨s, rfl, hle⟩
      · intro s' hs' _
        rw [h]
        simp only [Option.some.injEq] at hs'
        rw [hs']
      · intro hf; rw [h] at hf; simp at hf

theorem get_delivers_iff_witness :
    (GetSecret { secrets := [("k", { Value := "s", ExpiresAt := 5 })] } 5 "k").1.2 = true ∧
      (GetSecret { secrets := [("k", { Value := "s", ExpiresAt := 5 })] } 5 "k").1.1 = "s" :=
  have h := get_delivers_iff { secrets := [("k", { Value := "s", ExpiresAt := 5 })] } 5 "k"
  have hfound := h.1.mpr ⟨{ Value := "s", ExpiresAt := 5 }, by decide, by decide⟩
  ⟨hfound, h.2.1 { Value := "s", ExpiresAt := 5 } (by decide) hfound⟩

/-! ## Injectivity of the key encoding -/

theorem Encode_injective (b1 b2 : List Byte) (h : Encode b1 = Encode b2) : b1 = b2 := by
  rw [← Decode_Encode b1, ← Decode_Encode b2, h]

theorem EncodeToString_injective (b1 b2 : List Byte)
    (h : EncodeToString b1 = EncodeToString b2) : b1 = b2 := by
  apply Encode_injective
  exact congrArg String.data h

/-- Claim C17: the key encoding is injective.  Two different 32-byte sequences give
different keys, so two `StoreSecret` calls whose random sources returned these two
sequences return different keys. -/
theorem key_encoding_injective (b1 b2 : List Byte) (_h1 : b1.length = 32)
    (_h2 : b2.length = 32) (hne : b1 ≠ b2) :
    EncodeToString b1 ≠ EncodeToString b2 ∧
      ∀ (ms1 ms2 ms1' ms2' : MemoryStore) (s1 s2 : Nat → Byte) (t1 t2 : Int)
        (P1 P2 : String) (T1 T2 : Int) (k1 k2 : String),
        readBytes 32 s1 = b1 → readBytes 32 s2 = b2 →
        StoreSecret ms1 (some s1) t1 P1 T1 = some (k1, ms1') →
        StoreSecret ms2 (some s2) t2 P2 T2 = some (k2, ms2') → k1 ≠ k2 := by
  have hkeys : EncodeToString b1 ≠ EncodeToString b2 :=
    fun h => hne (EncodeToString_injective b1 b2 h)
  refine ⟨hkeys, ?_⟩
  intro ms1 ms2 ms1' ms2' s1 s2 t1 t2 P1 P2 T1 T2 k1 k2 hb1 hb2 hs1 hs2
  have g1 := (StoreSecret_some ms1 ms1' (some s1) t1 P1 T1 k1 hs1).1
  have g2 := (StoreSecret_some ms2 ms2' (some s2) t2 P2 T2 k2 hs2).1
  simp only [generateKey, Option.some.injEq] at g1 g2
  rw [← g1, ← g2, hb1, hb2]
  exact hkeys

theorem key_encoding_injective_witness :
    EncodeToString (readBytes 32 zeroStream) ≠ EncodeToString (readBytes 32 onesStream) :=
  (key_encoding_injective (readBytes 32 zeroStream) (readBytes 32 onesStream)
    (by decide) (by decide) (by decide)).1

/-! ## Overwrite on collision -/

theorem mapDelete_eq_filter (m : SecretMap) (k : String) :
    mapDelete m k = m.filter (fun e => decide (e.1 ≠ k)) := by
  induction m with
  | nil => rfl
  | cons e rest ih =>
    obtain ⟨k0, v0⟩ := e
    by_cases h : k0 = k
    · simp [mapDelete, h, ih]
    · simp [mapDelete, h, ih]

theorem mapDelete_mem (m : SecretMap) (k : String) (e : String × Secret)
    (he : e ∈ mapDelete m k) : e ∈ m ∧ e.1 ≠ k := by
  rw [mapDelete_eq_filter, List.mem_filter] at he
  exact ⟨he.1, by simpa using he.2⟩

theorem distinctKeys_mapDelete (m : SecretMap) (k : String) (h : distinctKeys m) :
    distinctKeys (mapDelete m k) := by
  unfold distinctKeys at *
  rw [mapDelete_eq_filter]
  exact h.sublist ((List.filter_sublist m).map Prod.fst)

theorem distinctKeys_mapInsert (m : SecretMap) (k : String) (v : Secret)
    (h : distinctKeys m) : distinctKeys (mapInsert m k v) := by
  have hd := distinctKeys_mapDelete m k h
  unfold distinctKeys at *
  simp only [mapInsert, List.map_cons, List.nodup_cons]
  refine ⟨?_, hd⟩
  intro hmem
  obtain ⟨e, he, hek⟩ := List.mem_map.mp hmem
  exact (mapDelete_mem m k e he).2 hek

theorem mapLookup_none_of_not_mem_keys (m : SecretMap) (k : String)
    (h : k ∉ m.map Prod.fst) : mapLookup m k = none := by
  induction m with
  | nil => rfl
  | cons e rest ih =>
    obtain ⟨k0, v0⟩ := e
    simp only [List.map_cons, List.mem_cons, not_or] at h
    have h0 : ¬ k0 = k := fun h' => h.1 h'.symm
    simp only [mapLookup, if_neg h0]
    exact ih h.2

theorem mapLen_mapDelete_present (m : SecretMap) (k : String) (v : Secret)
    (hwf : distinctKeys m) (hpresent : mapLookup m k = some v) :
    mapLen (mapDelete m k) + 1 = mapLen m := by
  induction m with
  | nil => simp [mapLookup] at hpresent
  | cons e rest ih =>
    obtain ⟨k0, v0⟩ := e
    have hwf' : k0 ∉ rest.map Prod.fst ∧ distinctKeys rest := by
      unfold distinctKeys at hwf
      simpa only [List.map_cons, List.nodup_cons] using hwf
    by_cases h0 : k0 = k
    · subst h0
      have hnone := mapLookup_none_of_not_mem_keys rest k0 hwf'.1
      simp only [mapDelete, if_true, mapLen, List.length_cons,
        mapDelete_of_lookup_none rest k0 hnone]
    · simp only [mapLookup, if_neg h0] at hpresent
      have := ih hwf'.2 hpresent
      simp only [mapLen] at this
      simp only [mapDelete, if_neg h0, mapLen, List.length_cons, this]

theorem getSecrets_after_entry (k : String) (P : String) (e : Int)
    (calls : List (Int × String)) :
    ∀ ms : MemoryStore,
      (mapLookup ms.secrets k = none ∨
        mapLookup ms.secrets k = some { Value := P, ExpiresAt := e }) →
      ∀ cr ∈ calls.zip (getSecrets ms calls), cr.1.2 = k →
        cr.2 = (P, true) ∨ cr.2 = ("", false) := by
  induction calls with
  | nil => intro ms _ cr hcr; simp [getSecrets] at hcr
  | cons c cs ih =>
    intro ms hms cr hcr hk
    obtain ⟨now, key⟩ := c
    simp only [getSecrets, List.zip_cons_cons, List.mem_cons] at hcr
    rcases hcr with hcr | hcr
    · subst hcr
      simp only at hk
      subst hk
      simp only
      rcases hms with hms | hms
      · right; exact GetSecret_absent ms now key hms
      · by_cases hexp : e < now
        · right; exact GetSecret_expired ms now key _ hms hexp
        · left; exact GetSecret_live ms now key _ hms (not_lt.mp hexp)
    · refine ih (GetSecret ms now key).2 ?_ cr hcr hk
      by_cases hkey : k = key
      · left; rw [hkey]; exact GetSecret_lookup_self ms now key
      · rw [GetSecret_lookup_ne ms now hkey]; exact hms

/-- Claim C15: overwrite on collision.  When the generated key `k` is already present with
entry `(P0, e0)`, `StoreSecret(P, T)` at time `t` returns `k` and replaces the entry at
`k` with `(P, t + T)`: it is the only entry under `k`, the number of entries is unchanged,
other keys keep their entries, a following `GetSecret(k)` at a clock reading not after
`t + T` returns `(P, true)`, and every later `GetSecret(k)` returns `(P, true)` or
`("", false)`, never the earlier entry. -/
theorem store_overwrites_on_collision (ms : MemoryStore) (rand : RandSource) (P P0 : String)
    (T t e0 : Int) (k : String)
    (hwf : distinctKeys ms.secrets)
    (hk : generateKey 32 rand = some k)
    (hpresent : mapLookup ms.secrets k = some { Value := P0, ExpiresAt := e0 }) :
    ∃ ms' : MemoryStore, StoreSecret ms rand t P T = some (k, ms') ∧
      mapLookup ms'.secrets k = some { Value := P, ExpiresAt := t + T } ∧
      (∀ v : Secret, (k, v) ∈ ms'.secrets → v = { Value := P, ExpiresAt := t + T }) ∧
      mapLen ms'.secrets = mapLen ms.secrets ∧
      distinctKeys ms'.secrets ∧
      (∀ k' : String, k' ≠ k → mapLookup ms'.secrets k' = mapLookup ms.secrets k') ∧
      (∀ now : Int, now ≤ t + T → (GetSecret ms' now k).1 = (P, true)) ∧
      ∀ calls : List (Int × String), ∀ cr ∈ calls.zip (getSecrets ms' calls),
        cr.1.2 = k → cr.2 = (P, true) ∨ cr.2 = ("", false) := by
  refine ⟨_, StoreSecret_eq ms rand t P T k hk, mapLookup_mapInsert_self _ _ _, ?_, ?_,
    distinctKeys_mapInsert _ _ _ hwf, fun _ hne => mapLookup_mapInsert_ne _ _ hne, ?_, ?_⟩
  · intro v hv
    simp only [mapInsert, List.mem_cons, Prod.mk.injEq, true_and] at hv
    rcases hv with hv | hv
    · exact hv
    · exact absurd rfl (mapDelete_mem _ k (k, v) hv).2
  · have := mapLen_mapDelete_present ms.secrets k _ hwf hpresent
    simp only [mapLen] at this
    simp only [mapInsert, mapLen, List.length_cons, this]
  · intro now hnow
    exact GetSecret_live _ now k _ (mapLookup_mapInsert_self _ _ _) hnow
  · intro calls
    exact getSecrets_after_entry k P (t + T) calls _ (Or.inr (mapLookup_mapInsert_self _ _ _))

theorem store_overwrites_on_collision_witness :
    ∃ ms' : MemoryStore,
      StoreSecret { secrets := [("b", { Value := "v", ExpiresAt := 20 }),
          (zeroKey, { Value := "old", ExpiresAt := 3 })] }
        (some zeroStream) 10 "new" 5 = some (zeroKey, ms') ∧
      mapLookup ms'.secrets zeroKey = some { Value := "new", ExpiresAt := 10 + 5 } ∧
      (∀ v : Secret, (zeroKey, v) ∈ ms'.secrets → v = { Value := "new", ExpiresAt := 10 + 5 }) ∧
      mapLen ms'.secrets = mapLen [("b", { Value := "v", ExpiresAt := 20 }),
          (zeroKey, { Value := "old", ExpiresAt := 3 })] ∧
      distinctKeys ms'.secrets ∧
      (∀ k' : String, k' ≠ zeroKey → mapLookup ms'.secrets k'
        = mapLookup [("b", { Value := "v", ExpiresAt := 20 }),
          (zeroKey, { Value := "old", ExpiresAt := 3 })] k') ∧
      (∀ now : Int, now ≤ 10 + 5 → (GetSecret ms' now zeroKey).1 = ("new", true)) ∧
      ∀ calls : List (Int × String), ∀ cr ∈ calls.zip (getSecrets ms' calls),
        cr.1.2 = zeroKey → cr.2 = ("new", true) ∨ cr.2 = ("", false) :=
  store_overwrites_on_collision
    { secrets := [("b", { Value := "v", ExpiresAt := 20 }),
      (zeroKey, { Value := "old", ExpiresAt := 3 })] }
    (some zeroStream) "new" "old" 5 10 3 zeroKey (by decide) (by decide) (by decide)

/-! ## The HTTP handlers -/

theorem string_length_eq_zero (s : String) : s.length = 0 ↔ s = "" := by
  constructor
  · intro h
    apply String.ext
    exact List.length_eq_zero.mp h
  · intro h; rw [h]; rfl

theorem generateKey_no_slash (rand : RandSource) (k : String)
    (hk : generateKey 32 rand = some k) : '/' ∉ k.toList := by
  cases rand with
  | none => simp [generateKey] at hk
  | some stream =>
    simp only [generateKey, Option.some.injEq] at hk
    obtain ⟨body, hbody, hsafe⟩ :=
      Encode_padded (readBytes 32 stream) (by rw [readBytes_length])
    intro hmem
    have hmem' : '/' ∈ body ++ [padChar] := by
      rw [← hbody, ← hk] at *
      exact hmem
    rw [List.mem_append, List.mem_singleton] at hmem'
    rcases hmem' with h | h
    · have := hsafe _ h
      revert this
      decide
    · revert h
      decide

/-- Claim C13: submission handler.  A request whose method is not POST gets status 405 and
a POST whose body is unreadable or empty gets status 400, both with the store unchanged.
A POST with a readable non-empty body runs `StoreSecret` once with the body as payload and
a ttl of one hour (3600 seconds): the handler ends when `StoreSecret` does, and otherwise
the store is the one `StoreSecret` left and the response is the text
`Secret stored. Access it at: http://<host>/secret/<key>` with the returned key, which
contains no `/`. -/
theorem store_handler_contract (ms : MemoryStore) (rand : RandSource) (now : Int)
    (r : Request) :
    (r.Method ≠ "POST" →
        StoreSecretHandler ms rand now r
          = some ({ Status := 405, Body := "Invalid request method\n" }, ms)) ∧
      (r.Method = "POST" → (r.BodyErr = true ∨ r.Body = "") →
        StoreSecretHandler ms rand now r
          = some ({ Status := 400, Body := "Secret cannot be empty\n" }, ms)) ∧
      (r.Method = "POST" → r.BodyErr = false → r.Body ≠ "" →
        (StoreSecret ms rand now r.Body Hour = none → StoreSecretHandler ms rand now r = none) ∧
        ∀ (key : String) (ms' : MemoryStore),
          StoreSecret ms rand now r.Body Hour = some (key, ms') →
          StoreSecretHandler ms rand now r
            = some ({ Status := 200,
                      Body := "Secret stored. Access it at: http://" ++
                        (r.Host ++ "/secret/" ++ key) ++ "\n" }, ms') ∧
          '/' ∉ key.toList) ∧
      Hour = 3600 * 1000000000 := by
  refine ⟨?_, ?_, ?_, by decide⟩
  · intro hm
    simp only [StoreSecretHandler, if_pos hm]
    rfl
  · intro hm hbody
    have hcond : (r.BodyErr || r.Body.length == 0) = true := by
      rcases hbody with h | h
      · simp [h]
      · simp [h]
    simp only [StoreSecretHandler, hm, ne_eq, not_true_eq_false, if_false, hcond, if_true]
    rfl
  · intro hm herr hbody
    have hlen : ¬ r.Body.length = 0 := fun h => hbody ((string_length_eq_zero _).mp h)
    have hcond : (r.BodyErr || r.Body.length == 0) = false := by
      simp [herr, hlen]
    refine ⟨?_, ?_⟩
    · intro hnone
      simp only [StoreSecretHandler, hm, ne_eq, not_true_eq_false, if_false, hcond,
        Bool.false_eq_true, hnone]
    · intro key ms' hsome
      refine ⟨?_, generateKey_no_slash rand key (StoreSecret_some _ _ _ _ _ _ _ hsome).1⟩
      simp only [StoreSecretHandler, hm, ne_eq, not_true_eq_false, if_false, hcond,
        Bool.false_eq_true, hsome]

theorem store_handler_contract_witness :
    StoreSecretHandler NewMemoryStore (some zeroStream) 7
        { Method := "POST", Host := "localhost:8080", Path := "/store", Body := "hello",
          BodyErr := false }
      = some ({ Status := 200,
                Body := "Secret stored. Access it at: http://" ++
                  ("localhost:8080" ++ "/secret/" ++ zeroKey) ++ "\n" },
          { secrets := [(zeroKey, { Value := "hello", ExpiresAt := 3600000000007 })] }) ∧
      '/' ∉ zeroKey.toList :=
  ((store_handler_contract NewMemoryStore (some zeroStream) 7
      { Method := "POST", Host := "localhost:8080", Path := "/store", Body := "hello",
        BodyErr := false }).2.2.1 (by decide) (by decide) (by decide)).2 zeroKey
    { secrets := [(zeroKey, { Value := "hello", ExpiresAt := 3600000000007 })] } (by decide)

/-- Claim C14: redemption handler.  For a request path `/secret/` followed by `key`, the
slice is in bounds and the handler extracts exactly `key`.  With an empty key it answers
400 and leaves the store unchanged.  Otherwise it runs `GetSecret(key)` once: the store is
the one `GetSecret` left, and the answer is status 200 with `Your secret is: <payload>`
when `GetSecret` returned `found = true` and status 404 when it returned `found = false`. -/
theorem get_handler_contract (ms : MemoryStore) (now : Int) (r : Request) (key : String)
    (hpath : r.Path = "/secret/" ++ key) :
    (key = "" →
        GetSecretHandler ms now r
          = some ({ Status := 400, Body := "Secret key is required\n" }, ms)) ∧
      (key ≠ "" →
        ((GetSecret ms now key).1.2 = true →
          GetSecretHandler ms now r
            = some ({ Status := 200,
                      Body := "Your secret is: " ++ (GetSecret ms now key).1.1 ++ "\n" },
                (GetSecret ms now key).2)) ∧
        ((GetSecret ms now key).1.2 = false →
          GetSecretHandler ms now r
            = some ({ Status := 404, Body := "Secret not found or has expired\n" },
                (GetSecret ms now key).2))) := by
  have hbound : ¬ r.Path.utf8ByteSize < "/secret/".utf8ByteSize := by
    rw [hpath]
    show ¬ String.utf8ByteSize ⟨"/secret/".data ++ key.data⟩ < "/secret/".utf8ByteSize
    rw [String.utf8ByteSize_mk, String.utf8Len_append]
    exact Nat.not_lt.mpr (Nat.le_add_right _ _)
  have hslice : sliceFrom r.Path.data "/secret/".utf8ByteSize = some key.data := by
    rw [hpath]
    show sliceFrom ("/secret/".data ++ key.data) "/secret/".utf8ByteSize = some key.data
    have h8 : "/secret/".utf8ByteSize = 8 := by decide
    rw [h8]
    show sliceFrom ('/' :: 's' :: 'e' :: 'c' :: 'r' :: 'e' :: 't' :: '/' :: key.data) 8
      = some key.data
    have hs : ∀ (c : Char) (cs : List Char) (n : Nat), c.utf8Size = 1 →
        sliceFrom (c :: cs) (n + 1) = sliceFrom cs n := by
      intro c cs n hc
      simp only [sliceFrom, hc]
      rw [if_pos (Nat.le_add_left 1 n)]
      rfl
    rw [hs _ _ 7 (by decide), hs _ _ 6 (by decide), hs _ _ 5 (by decide),
      hs _ _ 4 (by decide), hs _ _ 3 (by decide), hs _ _ 2 (by decide),
      hs _ _ 1 (by decide), hs _ _ 0 (by decide)]
    cases key.data <;> rfl
  refine ⟨?_, ?_⟩
  · intro hempty
    have hk' : String.mk key.data = "" := hempty
    simp only [GetSecretHandler, if_neg hbound, hslice, hk', if_true]
    rfl
  · intro hne
    have hk' : String.mk key.data = key := rfl
    refine ⟨?_, ?_⟩
    · intro hfound
      simp only [GetSecretHandler, if_neg hbound, hslice, hk', if_neg hne, hfound,
        Bool.not_true, Bool.false_eq_true, if_false]
    · intro hmiss
      simp only [GetSecretHandler, if_neg hbound, hslice, hk', if_neg hne, hmiss,
        Bool.not_false, if_true]
      rfl

theorem get_handler_contract_witness :
    GetSecretHandler { secrets := [("k", { Value := "s", ExpiresAt := 5 })] } 5
        { Method := "GET", Host := "h", Path := "/secret/k", Body := "", BodyErr := false }
      = some ({ Status := 200,
                Body := "Your secret is: " ++
                  (GetSecret { secrets := [("k", { Value := "s", ExpiresAt := 5 })] } 5 "k").1.1
                  ++ "\n" },
          (GetSecret { secrets := [("k", { Value := "s", ExpiresAt := 5 })] } 5 "k").2) :=
  ((get_handler_contract { secrets := [("k", { Value := "s", ExpiresAt := 5 })] } 5
      { Method := "GET", Host := "h", Path := "/secret/k", Body := "", BodyErr := false }
      "k" (by decide)).2 (by decide)).1 (by decide)


/-! ## Concurrent calls of `GetSecret` -/

theorem GetPc.look_none_of_won (s : Secret) (look : Option Secret) (p : GetPc)
    (hw : p.won = true) (hok : p.ok s look) : look = none := by
  cases p with
  | atReturnHit secret => exact hok.1
  | returned value found => exact hok.1
  | _ => simp [GetPc.won] at hw

theorem GetPc.ok_none_of_not_inCrit (s : Secret) (p : GetPc)
    (hc : p.inCrit = false) (hok : p.ok s (some s)) : p.ok s none := by
  cases p with
  | atLock => trivial
  | returned value found => exact absurd hok.1 (by simp)
  | _ => simp [GetPc.inCrit] at hc

theorem threads_set_get (l : List GetPc) (i j : Nat) (p p' q : GetPc)
    (hi : l[i]? = some p) (hj : (l.set i p')[j]? = some q) :
    (j = i ∧ q = p') ∨ (j ≠ i ∧ l[j]? = some q) := by
  have hlt : i < l.length := (List.getElem?_eq_some.mp hi).1
  rw [List.getElem?_set] at hj
  by_cases h : i = j
  · left
    simp only [h ▸ hlt, if_true, h, Option.some.injEq] at hj
    exact ⟨h.symm, hj.symm⟩
  · right
    simp only [if_neg h] at hj
    exact ⟨fun h' => h h'.symm, hj⟩

theorem Inv.update {key : String} {s : Secret} {st : System} (hinv : Inv key s st)
    (i : Nat) (p p' : GetPc) (sh' : SharedStore)
    (hi : st.threads[i]? = some p)
    (henter : p.inCrit = true ∨ st.shared.locked = false)
    (hlock : sh'.locked = p'.inCrit)
    (hwon : p.won = true → p'.won = true)
    (hlook : (mapLookup sh'.secrets key = mapLookup st.shared.secrets key ∧
          (p'.won = true → p.won = true)) ∨
        (mapLookup st.shared.secrets key = some s ∧ mapLookup sh'.secrets key = none ∧
          p.inCrit = true ∧ p'.won = true))
    (hok : p'.ok s (mapLookup sh'.secrets key)) :
    Inv key s { shared := sh', threads := st.threads.set i p' } := by
  have hlt : i < st.threads.length := (List.getElem?_eq_some.mp hi).1
  have hself : (st.threads.set i p')[i]? = some p' := by
    rw [List.getElem?_set]; simp [hlt]
  -- no other goroutine holds the mutex
  have hothers : ∀ (j : Nat) (q : GetPc), j ≠ i → st.threads[j]? = some q →
      q.inCrit = true → False := by
    intro j q hne hj hq
    rcases henter with hp | hfree
    · exact hne (hinv.mutex j i q p hj hi hq hp)
    · have := hinv.held.mpr ⟨j, q, hj, hq⟩
      rw [hfree] at this
      exact absurd this (by simp)
  -- no other goroutine is a winner when this one becomes one
  have hwinners : ∀ (j : Nat) (q : GetPc), j ≠ i → st.threads[j]? = some q →
      q.won = true → p'.won = true → False := by
    intro j q hne hj hq hp'
    rcases hlook with ⟨_, hback⟩ | ⟨hsome, _, _, _⟩
    · exact hne (hinv.oneWinner j i q p hj hi hq (hback hp'))
    · have := GetPc.look_none_of_won s _ q hq (hinv.localOk j q hj)
      rw [hsome] at this
      exact absurd this (by simp)
  refine ⟨?_, ?_, ?_, ?_, ?_, ?_⟩
  · intro a b pa pb ha hb hca hcb
    rcases threads_set_get _ i a p p' pa hi ha with ⟨ha1, _⟩ | ⟨ha1, ha2⟩ <;>
      rcases threads_set_get _ i b p p' pb hi hb with ⟨hb1, _⟩ | ⟨hb1, hb2⟩
    · rw [ha1, hb1]
    · exact (hothers b pb hb1 hb2 hcb).elim
    · exact (hothers a pa ha1 ha2 hca).elim
    · exact hinv.mutex a b pa pb ha2 hb2 hca hcb
  · show sh'.locked = true ↔ _
    rw [hlock]
    constructor
    · intro hc
      exact ⟨i, p', hself, hc⟩
    · rintro ⟨j, q, hj, hq⟩
      rcases threads_set_get _ i j p p' q hi hj with ⟨_, hq'⟩ | ⟨hj1, hj2⟩
      · rw [← hq']; exact hq
      · exact (hothers j q hj1 hj2 hq).elim
  · intro a b pa pb ha hb hwa hwb
    rcases threads_set_get _ i a p p' pa hi ha with ⟨ha1, ha2⟩ | ⟨ha1, ha2⟩ <;>
      rcases threads_set_get _ i b p p' pb hi hb with ⟨hb1, hb2⟩ | ⟨hb1, hb2⟩
    · rw [ha1, hb1]
    · exact (hwinners b pb hb1 hb2 hwb (ha2 ▸ hwa)).elim
    · exact (hwinners a pa ha1 ha2 hwa (hb2 ▸ hwb)).elim
    · exact hinv.oneWinner a b pa pb ha2 hb2 hwa hwb
  · show mapLookup sh'.secrets key = some s ∨ mapLookup sh'.secrets key = none
    rcases hlook with ⟨heq, _⟩ | ⟨_, hnone, _, _⟩
    · rw [heq]; exact hinv.entry
    · exact Or.inr hnone
  · show mapLookup sh'.secrets key = none → _
    intro hnone
    rcases hlook with ⟨heq, _⟩ | ⟨_, _, _, hp'⟩
    · obtain ⟨j, q, hj, hq⟩ := hinv.winner (heq ▸ hnone)
      by_cases hji : j = i
      · subst hji
        have hqp : q = p := by
          rw [hi] at hj
          exact (Option.some.inj hj).symm
        exact ⟨j, p', hself, hwon (hqp ▸ hq)⟩
      · refine ⟨j, q, ?_, hq⟩
        show (st.threads.set i p')[j]? = some q
        rw [List.getElem?_set_ne (fun h => hji h.symm)]
        exact hj
    · exact ⟨i, p', hself, hp'⟩
  · intro j q hj
    show q.ok s (mapLookup sh'.secrets key)
    rcases threads_set_get _ i j p p' q hi hj with ⟨_, hq⟩ | ⟨hj1, hj2⟩
    · rw [hq]; exact hok
    · have hold := hinv.localOk j q hj2
      rcases hlook with ⟨heq, _⟩ | ⟨hsome, hnone, _, _⟩
      · rw [heq]; exact hold
      · rw [hnone]
        rw [hsome] at hold
        apply GetPc.ok_none_of_not_inCrit s q _ hold
        cases hc : q.inCrit with
        | false => rfl
        | true => exact (hothers j q hj1 hj2 hc).elim


theorem getStep_inv {key : String} {s : Secret} {st : System} (hinv : Inv key s st)
    (i : Nat) (now : Int) (p p' : GetPc) (sh' : SharedStore)
    (hnow : now ≤ s.ExpiresAt)
    (hi : st.threads[i]? = some p)
    (hstep : getStep key now st.shared p = some (sh', p')) :
    Inv key s { shared := sh', threads := st.threads.set i p' } := by
  have hok := hinv.localOk i p hi
  cases p with
  | atLock =>
    cases hl : st.shared.locked with
    | true => simp [getStep, hl] at hstep
    | false =>
      simp only [getStep, hl, Bool.false_eq_true, if_false, Option.some.injEq,
        Prod.mk.injEq] at hstep
      obtain ⟨hsh, hp⟩ := hstep
      subst hsh hp
      exact hinv.update i _ _ _ hi (Or.inr hl) rfl (by simp [GetPc.won])
        (Or.inl ⟨rfl, by simp [GetPc.won]⟩) trivial
  | atLookup =>
    cases hlook : mapLookup st.shared.secrets key with
    | none =>
      simp only [getStep, hlook, Option.some.injEq, Prod.mk.injEq] at hstep
      obtain ⟨hsh, hp⟩ := hstep
      subst hsh hp
      refine hinv.update i _ _ _ hi (Or.inl rfl) ?_ (by simp [GetPc.won])
        (Or.inl ⟨rfl, by simp [GetPc.won]⟩) ?_
      · exact (hinv.held.mpr ⟨i, _, hi, rfl⟩)
      · simp [GetPc.ok, hlook]
    | some s0 =>
      simp only [getStep, hlook, Option.some.injEq, Prod.mk.injEq] at hstep
      obtain ⟨hsh, hp⟩ := hstep
      subst hsh hp
      have hs0 : s0 = s := by
        rcases hinv.entry with h | h
        · rw [hlook] at h; exact Option.some.inj h
        · rw [hlook] at h; exact absurd h (by simp)
      refine hinv.update i _ _ _ hi (Or.inl rfl) ?_ (by simp [GetPc.won])
        (Or.inl ⟨rfl, by simp [GetPc.won]⟩) ?_
      · exact (hinv.held.mpr ⟨i, _, hi, rfl⟩)
      · simp [GetPc.ok, hlook, hs0]
  | atCheck secret exists_ =>
    have hheld : st.shared.locked = true := hinv.held.mpr ⟨i, _, hi, rfl⟩
    cases exists_ with
    | false =>
      simp only [getStep, Bool.not_false, Bool.true_or, if_true, Option.some.injEq,
        Prod.mk.injEq] at hstep
      obtain ⟨hsh, hp⟩ := hstep
      subst hsh hp
      exact hinv.update i _ _ _ hi (Or.inl rfl) hheld (by simp [GetPc.won])
        (Or.inl ⟨rfl, by simp [GetPc.won]⟩) (hok.2 rfl)
    | true =>
      obtain ⟨hsome, hsec⟩ := hok.1 rfl
      subst hsec
      have hnot : ¬ secret.ExpiresAt < now := not_lt.mpr hnow
      simp only [getStep, Bool.not_true, Bool.false_or, decide_eq_true_eq, if_neg hnot,
        Option.some.injEq, Prod.mk.injEq] at hstep
      obtain ⟨hsh, hp⟩ := hstep
      subst hsh hp
      exact hinv.update i _ _ _ hi (Or.inl rfl) hheld (by simp [GetPc.won])
        (Or.inl ⟨rfl, by simp [GetPc.won]⟩) ⟨hsome, rfl⟩
  | atDeleteMiss =>
    have hheld : st.shared.locked = true := hinv.held.mpr ⟨i, _, hi, rfl⟩
    simp only [getStep, Option.some.injEq, Prod.mk.injEq] at hstep
    obtain ⟨hsh, hp⟩ := hstep
    subst hsh hp
    have hnone : mapLookup (mapDelete st.shared.secrets key) key = none :=
      mapLookup_mapDelete_self _ _
    refine hinv.update i _ _ _ hi (Or.inl rfl) hheld (by simp [GetPc.won])
      (Or.inl ⟨?_, by simp [GetPc.won]⟩) ?_
    · show mapLookup (mapDelete st.shared.secrets key) key = _
      rw [hnone]; exact hok.symm
    · exact hnone
  | atReturnMiss =>
    simp only [getStep, Option.some.injEq, Prod.mk.injEq] at hstep
    obtain ⟨hsh, hp⟩ := hstep
    subst hsh hp
    exact hinv.update i _ _ _ hi (Or.inl rfl) rfl (by simp [GetPc.won])
      (Or.inl ⟨rfl, by simp [GetPc.won]⟩) ⟨hok, by simp, by simp⟩
  | atDeleteHit secret =>
    have hheld : st.shared.locked = true := hinv.held.mpr ⟨i, _, hi, rfl⟩
    simp only [getStep, Option.some.injEq, Prod.mk.injEq] at hstep
    obtain ⟨hsh, hp⟩ := hstep
    subst hsh hp
    have hnone : mapLookup (mapDelete st.shared.secrets key) key = none :=
      mapLookup_mapDelete_self _ _
    exact hinv.update i _ _ _ hi (Or.inl rfl) hheld (by simp [GetPc.won])
      (Or.inr ⟨hok.1, hnone, rfl, rfl⟩) ⟨hnone, hok.2⟩
  | atReturnHit secret =>
    simp only [getStep, Option.some.injEq, Prod.mk.injEq] at hstep
    obtain ⟨hsh, hp⟩ := hstep
    subst hsh hp
    exact hinv.update i _ _ _ hi (Or.inl rfl) rfl (by simp [GetPc.won])
      (Or.inl ⟨rfl, by simp [GetPc.won]⟩) ⟨hok.1, by simp [hok.2], by simp⟩
  | returned value found => simp [getStep] at hstep

theorem sysStep_inv {key : String} {s : Secret} {st : System} (hinv : Inv key s st)
    (i : Nat) (now : Int) (hnow : now ≤ s.ExpiresAt) : Inv key s (sysStep key st i now) := by
  cases hi : st.threads[i]? with
  | none => simp only [sysStep, hi]; exact hinv
  | some p =>
    cases hstep : getStep key now st.shared p with
    | none => simp only [sysStep, hi, hstep]; exact hinv
    | some r =>
      obtain ⟨sh', p'⟩ := r
      simp only [sysStep, hi, hstep]
      exact getStep_inv hinv i now p p' sh' hnow hi hstep

theorem runSchedule_inv {key : String} {s : Secret} (sched : List (Nat × Int)) :
    ∀ st : System, Inv key s st → (∀ e ∈ sched, e.2 ≤ s.ExpiresAt) →
      Inv key s (runSchedule key st sched) := by
  induction sched with
  | nil => intro st hinv _; exact hinv
  | cons e rest ih =>
    intro st hinv hall
    obtain ⟨i, now⟩ := e
    exact ih _ (sysStep_inv hinv i now (hall (i, now) (List.mem_cons_self _ _)))
      (fun e he => hall e (List.mem_cons_of_mem _ he))

theorem initialSystem_inv (key : String) (s : Secret) (m : SecretMap) (n : Nat)
    (hpresent : mapLookup m key = some s) : Inv key s (initialSystem m n) := by
  have hthr : ∀ (i : Nat) (p : GetPc), (initialSystem m n).threads[i]? = some p →
      p = GetPc.atLock := by
    intro i p hp
    simp only [initialSystem, List.getElem?_replicate] at hp
    by_cases h : i < n
    · simp only [if_pos h, Option.some.injEq] at hp; exact hp.symm
    · simp [if_neg h] at hp
  refine ⟨?_, ?_, ?_, Or.inl hpresent, ?_, ?_⟩
  · intro i j p q hp _ hc _
    rw [hthr i p hp] at hc
    simp [GetPc.inCrit] at hc
  · constructor
    · intro h; simp [initialSystem] at h
    · rintro ⟨i, p, hp, hc⟩
      rw [hthr i p hp] at hc
      simp [GetPc.inCrit] at hc
  · intro i j p q hp _ hw _
    rw [hthr i p hp] at hw
    simp [GetPc.won] at hw
  · intro h
    simp only [initialSystem] at h
    rw [hpresent] at h
    exact absurd h (by simp)
  · intro i p hp
    rw [hthr i p hp]
    trivial


theorem sysStep_length (key : String) (st : System) (i : Nat) (now : Int) :
    (sysStep key st i now).threads.length = st.threads.length := by
  cases hi : st.threads[i]? with
  | none => simp only [sysStep, hi]
  | some p =>
    cases hstep : getStep key now st.shared p with
    | none => simp only [sysStep, hi, hstep]
    | some r => simp only [sysStep, hi, hstep, List.length_set]

theorem runSchedule_length (key : String) (sched : List (Nat × Int)) :
    ∀ st : System, (runSchedule key st sched).threads.length = st.threads.length := by
  induction sched with
  | nil => intro st; rfl
  | cons e rest ih =>
    intro st
    obtain ⟨i, now⟩ := e
    simp only [runSchedule, ih, sysStep_length]

theorem mem_of_thread (l : List GetPc) (i : Nat) (p : GetPc) (h : l[i]? = some p) : p ∈ l := by
  obtain ⟨hlt, hp⟩ := List.getElem?_eq_some.mp h
  rw [← hp]
  exact List.getElem_mem hlt

theorem GetPc.eq_returned_of_isReturned (p : GetPc) (h : p.isReturned = true) :
    ∃ (v : String) (f : Bool), p = GetPc.returned v f := by
  cases p with
  | returned v f => exact ⟨v, f, rfl⟩
  | _ => simp [GetPc.isReturned] at h

theorem Inv.results {key : String} {s : Secret} {st : System} (hinv : Inv key s st)
    (n : Nat) (hn : 1 ≤ n) (hlen : st.threads.length = n)
    (hdone : ∀ pc ∈ st.threads, pc.isReturned = true) :
    ∃ i : Nat, i < n ∧ st.threads[i]? = some (GetPc.returned s.Value true) ∧
      ∀ j : Nat, j < n → j ≠ i → st.threads[j]? = some (GetPc.returned "" false) := by
  have hret : ∀ (j : Nat) (q : GetPc), st.threads[j]? = some q →
      ∃ (v : String) (f : Bool), q = GetPc.returned v f := by
    intro j q hq
    exact GetPc.eq_returned_of_isReturned q (hdone q (mem_of_thread _ _ _ hq))
  have h0 : (0 : Nat) < st.threads.length := by omega
  obtain ⟨v0, f0, hq0⟩ := hret 0 _ (List.getElem?_eq_getElem h0)
  have hnone : mapLookup st.shared.secrets key = none := by
    have := hinv.localOk 0 _ (List.getElem?_eq_getElem h0)
    rw [hq0] at this
    exact this.1
  obtain ⟨i, p, hi, hw⟩ := hinv.winner hnone
  obtain ⟨v, f, hp⟩ := hret i p hi
  subst hp
  have hf : f = true := by
    cases f with
    | true => rfl
    | false => simp [GetPc.won] at hw
  subst hf
  have hv : v = s.Value := (hinv.localOk i _ hi).2.1 rfl
  subst hv
  refine ⟨i, ?_, hi, ?_⟩
  · rw [← hlen]; exact (List.getElem?_eq_some.mp hi).1
  · intro j hj hne
    have hjlt : j < st.threads.length := by omega
    have hjq := List.getElem?_eq_getElem hjlt
    obtain ⟨v', f', hq⟩ := hret j _ hjq
    rw [hq] at hjq
    cases f' with
    | true => exact absurd (hinv.oneWinner j i _ _ hjq hi rfl rfl) hne
    | false =>
      have hv' : v' = "" := (hinv.localOk j _ hjq).2.2 rfl
      rw [hjq, hv']

theorem Inv.progress {key : String} {s : Secret} {st : System} (hinv : Inv key s st)
    (now : Int) :
    (∀ pc ∈ st.threads, pc.isReturned = true) ∨
      ∃ (i : Nat) (p p' : GetPc) (sh' : SharedStore),
        st.threads[i]? = some p ∧ getStep key now st.shared p = some (sh', p') ∧
          p.remaining = p'.remaining + 1 := by
  cases hl : st.shared.locked with
  | true =>
    right
    obtain ⟨i, p, hi, hc⟩ := hinv.held.mp hl
    refine ⟨i, p, ?_⟩
    cases p with
    | atLock => simp [GetPc.inCrit] at hc
    | returned v f => simp [GetPc.inCrit] at hc
    | atLookup =>
      cases hlook : mapLookup st.shared.secrets key with
      | none =>
        exact ⟨GetPc.atCheck { Value := "", ExpiresAt := 0 } false, st.shared, hi,
          by simp only [getStep, hlook], rfl⟩
      | some s0 =>
        exact ⟨GetPc.atCheck s0 true, st.shared, hi, by simp only [getStep, hlook], rfl⟩
    | atCheck secret exists_ =>
      by_cases hcond : (!exists_ || decide (secret.ExpiresAt < now)) = true
      · exact ⟨GetPc.atDeleteMiss, st.shared, hi, by simp only [getStep, if_pos hcond], rfl⟩
      · exact ⟨GetPc.atDeleteHit secret, st.shared, hi,
          by simp only [getStep, if_neg hcond], rfl⟩
    | atDeleteMiss => exact ⟨_, _, hi, rfl, rfl⟩
    | atReturnMiss => exact ⟨_, _, hi, rfl, rfl⟩
    | atDeleteHit secret => exact ⟨_, _, hi, rfl, rfl⟩
    | atReturnHit secret => exact ⟨_, _, hi, rfl, rfl⟩
  | false =>
    by_cases hall : ∀ pc ∈ st.threads, pc.isReturned = true
    · exact Or.inl hall
    · right
      push_neg at hall
      obtain ⟨p, hp, hnot⟩ := hall
      obtain ⟨i, hi⟩ := List.getElem?_of_mem hp
      have hcrit : p.inCrit = false := by
        cases hc : p.inCrit with
        | false => rfl
        | true =>
          have := hinv.held.mpr ⟨i, p, hi, hc⟩
          rw [hl] at this
          exact absurd this (by simp)
      cases p with
      | atLock =>
        exact ⟨i, _, GetPc.atLookup, { st.shared with locked := true }, hi,
          by simp only [getStep, hl, Bool.false_eq_true, if_false], rfl⟩
      | returned v f => simp [GetPc.isReturned] at hnot
      | _ => simp [GetPc.inCrit] at hcrit

theorem sum_remaining_set (l : List GetPc) :
    ∀ (i : Nat) (p p' : GetPc), l[i]? = some p →
      ((l.set i p').map GetPc.remaining).sum + p.remaining
        = (l.map GetPc.remaining).sum + p'.remaining := by
  induction l with
  | nil => intro i p p' h; simp at h
  | cons a rest ih =>
    intro i p p' h
    cases i with
    | zero =>
      simp only [List.getElem?_cons_zero, Option.some.injEq] at h
      subst h
      simp only [List.set_cons_zero, List.map_cons, List.sum_cons]
      omega
    | succ i =>
      simp only [List.getElem?_cons_succ] at h
      have := ih i p p' h
      simp only [List.set_cons_succ, List.map_cons, List.sum_cons]
      omega

theorem Inv.exists_complete {key : String} {s : Secret} (mu : Nat) :
    ∀ st : System, Inv key s st → (st.threads.map GetPc.remaining).sum = mu →
      ∃ sched : List (Nat × Int), (∀ e ∈ sched, e.2 ≤ s.ExpiresAt) ∧
        ∀ pc ∈ (runSchedule key st sched).threads, pc.isReturned = true := by
  induction mu with
  | zero =>
    intro st hinv hmu
    rcases hinv.progress s.ExpiresAt with hall | ⟨i, p, p', sh', hi, _, hrem⟩
    · exact ⟨[], by simp, hall⟩
    · have hle : p.remaining ≤ (st.threads.map GetPc.remaining).sum :=
        List.single_le_sum (by simp) _ (List.mem_map_of_mem _ (mem_of_thread _ _ _ hi))
      omega
  | succ mu ih =>
    intro st hinv hmu
    rcases hinv.progress s.ExpiresAt with hall | ⟨i, p, p', sh', hi, hstep, hrem⟩
    · exact ⟨[], by simp, hall⟩
    · have hst : sysStep key st i s.ExpiresAt
          = { shared := sh', threads := st.threads.set i p' } := by
        simp only [sysStep, hi, hstep]
      have hinv' : Inv key s (sysStep key st i s.ExpiresAt) :=
        sysStep_inv hinv i s.ExpiresAt (le_refl _)
      have hsum := sum_remaining_set st.threads i p p' hi
      have hmu' : ((sysStep key st i s.ExpiresAt).threads.map GetPc.remaining).sum = mu := by
        rw [hst]
        simp only
        omega
      obtain ⟨sched, hclock, hdone⟩ := ih _ hinv' hmu'
      refine ⟨(i, s.ExpiresAt) :: sched, ?_, ?_⟩
      · intro e he
        rcases List.mem_cons.mp he with h | h
        · rw [h]
        · exact hclock e h
      · exact hdone


/-- A goroutine that runs its five statements alone, from a free mutex, returns what
`GetSecret` returns and leaves the map `GetSecret` leaves, with the mutex free again. -/
theorem runSchedule_alone (key : String) (now : Int) (m : SecretMap) :
    runSchedule key (initialSystem m 1) [(0, now), (0, now), (0, now), (0, now), (0, now)]
      = { shared := { locked := false,
                      secrets := (GetSecret { secrets := m } now key).2.secrets },
          threads := [GetPc.returned (GetSecret { secrets := m } now key).1.1
            (GetSecret { secrets := m } now key).1.2] } := by
  cases hlook : mapLookup m key with
  | none =>
    simp [runSchedule, sysStep, getStep, initialSystem, GetSecret, hlook]
  | some s0 =>
    by_cases hexp : s0.ExpiresAt < now
    · simp [runSchedule, sysStep, getStep, initialSystem, GetSecret, hlook, hexp]
    · simp [runSchedule, sysStep, getStep, initialSystem, GetSecret, hlook, hexp]

/-- Claim C12: concurrent exactly-once.  Take `n ≥ 1` goroutines that each run
`GetSecret(k)` on a store holding the secret `s` under `k`, interleaved statement by
statement in any order, with every clock reading not after `s.ExpiresAt`.  Some
interleaving lets all calls return; among the calls that have returned at any moment at
most one has `found = true`; and in every interleaving after which all calls have
returned, exactly one call returned `(s.Value, true)` and the other `n - 1` returned
`("", false)`. -/
theorem concurrent_get_exactly_once (n : Nat) (m : SecretMap) (k : String) (s : Secret)
    (hn : 1 ≤ n) (hpresent : mapLookup m k = some s) :
    (∃ sched : List (Nat × Int), (∀ e ∈ sched, e.2 ≤ s.ExpiresAt) ∧
        ∀ pc ∈ (runSchedule k (initialSystem m n) sched).threads, pc.isReturned = true) ∧
      ∀ sched : List (Nat × Int), (∀ e ∈ sched, e.2 ≤ s.ExpiresAt) →
        (∀ (i j : Nat) (v w : String),
          (runSchedule k (initialSystem m n) sched).threads[i]? = some (GetPc.returned v true) →
          (runSchedule k (initialSystem m n) sched).threads[j]? = some (GetPc.returned w true) →
          i = j) ∧
        ((∀ pc ∈ (runSchedule k (initialSystem m n) sched).threads, pc.isReturned = true) →
          ∃ i : Nat, i < n ∧
            (runSchedule k (initialSystem m n) sched).threads[i]?
              = some (GetPc.returned s.Value true) ∧
            ∀ j : Nat, j < n → j ≠ i →
              (runSchedule k (initialSystem m n) sched).threads[j]?
                = some (GetPc.returned "" false)) := by
  have hinit := initialSystem_inv k s m n hpresent
  refine ⟨Inv.exists_complete _ _ hinit rfl, ?_⟩
  intro sched hclock
  have hinv := runSchedule_inv sched _ hinit hclock
  refine ⟨?_, ?_⟩
  · intro i j v w hi hj
    exact hinv.oneWinner i j _ _ hi hj rfl rfl
  · intro hdone
    refine hinv.results n hn ?_ hdone
    rw [runSchedule_length]
    simp [initialSystem]

theorem concurrent_get_exactly_once_witness :
    ∃ i : Nat, i < 3 ∧
      (runSchedule "k" (initialSystem [("k", { Value := "s", ExpiresAt := 5 })] 3)
        [(1, 0), (0, 0), (2, 1), (1, 1), (1, 2), (0, 2), (1, 3), (2, 3), (1, 4), (2, 4),
          (2, 4), (0, 4), (2, 4), (2, 5), (2, 5), (0, 5), (0, 5), (0, 5), (0, 5),
          (0, 5)]).threads[i]? = some (GetPc.returned "s" true) ∧
      ∀ j : Nat, j < 3 → j ≠ i →
        (runSchedule "k" (initialSystem [("k", { Value := "s", ExpiresAt := 5 })] 3)
          [(1, 0), (0, 0), (2, 1), (1, 1), (1, 2), (0, 2), (1, 3), (2, 3), (1, 4), (2, 4),
            (2, 4), (0, 4), (2, 4), (2, 5), (2, 5), (0, 5), (0, 5), (0, 5), (0, 5),
            (0, 5)]).threads[j]? = some (GetPc.returned "" false) :=
  ((concurrent_get_exactly_once 3 [("k", { Value := "s", ExpiresAt := 5 })] "k"
      { Value := "s", ExpiresAt := 5 } (by decide) (by decide)).2
    [(1, 0), (0, 0), (2, 1), (1, 1), (1, 2), (0, 2), (1, 3), (2, 3), (1, 4), (2, 4),
      (2, 4), (0, 4), (2, 4), (2, 5), (2, 5), (0, 5), (0, 5), (0, 5), (0, 5), (0, 5)]
    (by decide)).2 (by decide)

end Paloma
